import Mathlib

/-!
Verification of the maze-solving graph pipeline.

This file gives a shallow embedding of the graph construction code
(src/graph.rs) and the pathfinding code (src/pathfinding.rs) of the
rust-maze-solving repository, and proves properties of that embedding.

Modelling conventions:
* Rust u32 coordinates and u8 channel values are modelled as Nat.  The
  checked_add in potential_neighbors can only return None at u32::MAX,
  which is unreachable for coordinates of a decodable raster, so the
  increment side is modelled as total.
* f32 edge weights are modelled as Int.  Every weight the program ever
  manipulates is a sum of copies of the constant 1.0, hence a small
  integer that f32 represents exactly, and the code only adds and compares
  weights, never divides, so f32 arithmetic agrees with exact integer
  arithmetic on every reachable value.  The initial distance f32::MAX of
  the priority search is modelled as Option.none (an infinity): a
  comparison x < f32::MAX behaves as x < infinity for every distance the
  program can actually produce.
* Rust panics (vector indexing out of bounds) are modelled by Option /
  RunRes.panic results; list reads use List.get? and list writes use
  setChecked, which fail exactly when the index is out of bounds.
* Loops are modelled by explicit step functions iterated with fuel; fuel
  exhaustion is the distinguished RunRes.diverge outcome.
-/

/-- A 2D integer coordinate, mirroring struct Coord of src/graph.rs. -/
structure Coord where
  x : Nat
  y : Nat
deriving DecidableEq, Repr

/-- One RGB pixel; only the red channel is inspected by the sampler. -/
structure Rgb where
  red : Nat
  green : Nat
  blue : Nat
deriving DecidableEq, Repr

/-- A decoded raster image: dimensions plus a pixel function. -/
structure Raster where
  width : Nat
  height : Nat
  pix : Nat → Nat → Rgb

/-- A graph vertex, mirroring struct Vertex of src/graph.rs: a position and
an ordered list of (neighbor index, weight) edges. -/
structure Vertex where
  pos : Coord
  neighbors : List (Nat × Int)
deriving DecidableEq, Repr

/-- The graph structure of src/graph.rs: distinguished start and end indices
plus the vertex list.  The Rust field end is called endv here because end is
a reserved word in Lean. -/
structure Graph where
  start : Nat
  endv : Nat
  vertices : List Vertex
deriving DecidableEq, Repr

/-- Mirrors Coord.potential_neighbors: up, down, left, right candidates in
that order; decrements that would underflow are discarded (checked_sub). -/
def potential_neighbors (c : Coord) : List Coord :=
  ((if c.y = 0 then none else some (Coord.mk c.x (c.y - 1))) ::
   (some (Coord.mk c.x (c.y + 1))) ::
   (if c.x = 0 then none else some (Coord.mk (c.x - 1) c.y)) ::
   (some (Coord.mk (c.x + 1) c.y)) :: []).reduceOption

/-- Mirrors create_vertices: scan the raster in the order of
enumerate_pixels (row major, x fastest), keep every pixel whose red channel
is nonzero, and make a vertex with an empty neighbor list for it. -/
def create_vertices (img : Raster) : List Vertex :=
  (List.range img.height).flatMap fun y =>
    (List.range img.width).filterMap fun x =>
      if (img.pix x y).red ≠ 0 then
        some (Vertex.mk (Coord.mk x y) [])
      else
        none

/-- Lookup of a position in the vertex list, mirroring the HashMap built by
collecting (pos, index) pairs: on duplicate positions the later insert wins,
so the scan keeps the greatest matching index. -/
def posLookup (vertices : List Vertex) (p : Coord) : Option Nat :=
  (List.range vertices.length).foldl
    (fun acc i =>
      match vertices.get? i with
      | some v => if v.pos = p then some i else acc
      | none => acc)
    none

/-- Mirrors populate_vertex_neighbors: for each vertex, append an edge of
weight 1.0 for every potential neighbor position present in the lookup.
The lookup is built from the input list and only positions are consulted,
which the loop never mutates. -/
def populate_vertex_neighbors (vertices : List Vertex) : List Vertex :=
  vertices.map fun v =>
    Vertex.mk v.pos
      (v.neighbors ++ (potential_neighbors v.pos).filterMap
        (fun p => (posLookup vertices p).map (fun i => (i, (1 : Int)))))

/-- Mirrors the iter_mut().find update in reduce_vertex_count: replace the
first edge whose target index equals tgt, leave the list unchanged when no
edge matches. -/
def updateFirst (l : List (Nat × Int)) (tgt : Nat) (e : Nat × Int) :
    List (Nat × Int) :=
  match l with
  | [] => []
  | hd :: tl => if hd.1 = tgt then e :: tl else hd :: updateFirst tl tgt e

/-- Checked list write: Some of the updated list if the index is in bounds,
None (the Rust index panic) otherwise. -/
def setChecked {α : Type} (l : List α) (i : Nat) (a : α) : Option (List α) :=
  if i < l.length then some (l.set i a) else none

/-- One iteration of the reduce_vertex_count loop at index i.  The branch
reading vertices[i] cannot fail at the call sites because the loop runs i
over 0..vertices.len() and the length never changes; indexing the two
neighbor targets can fail (a Rust panic) on malformed input. -/
def reduceStep (vertices : List Vertex) (i : Nat) : Option (List Vertex) :=
  match vertices.get? i with
  | none => none
  | some vertex =>
    match vertex.neighbors with
    | [(idx_a, weight_a), (idx_b, weight_b)] =>
      match vertices.get? idx_a with
      | none => none
      | some va =>
        let vs1 := vertices.set idx_a
          (Vertex.mk va.pos (updateFirst va.neighbors i (idx_b, weight_a + weight_b)))
        match vs1.get? idx_b with
        | none => none
        | some vb =>
          let vs2 := vs1.set idx_b
            (Vertex.mk vb.pos (updateFirst vb.neighbors i (idx_a, weight_b + weight_b)))
          match vs2.get? i with
          | none => none
          | some vi => some (vs2.set i (Vertex.mk vi.pos []))
    | _ => some vertices

/-- Mirrors reduce_vertex_count: a single forward sweep of reduceStep over
all indices of the input list. -/
def reduce_vertex_count (vertices : List Vertex) : Option (List Vertex) :=
  (List.range vertices.length).foldlM reduceStep vertices

/-- Mirrors find_boundary_vertices: scan x over the full width checking the
top row and then the bottom row at each x, then scan the interior rows
checking the left column and then the right column at each y. -/
def find_boundary_vertices (vertices : List Vertex) (width height : Nat) :
    List Nat :=
  let afterRows := (List.range width).foldl
    (fun acc x =>
      let acc1 := match posLookup vertices (Coord.mk x 0) with
        | some idx => acc ++ [idx]
        | none => acc
      match posLookup vertices (Coord.mk x (height - 1)) with
      | some idx => acc1 ++ [idx]
      | none => acc1)
    []
  (List.range (height - 1 - 1)).foldl
    (fun acc k =>
      let y := k + 1
      let acc1 := match posLookup vertices (Coord.mk 0 y) with
        | some idx => acc ++ [idx]
        | none => acc
      match posLookup vertices (Coord.mk (width - 1) y) with
      | some idx => acc1 ++ [idx]
      | none => acc1)
    afterRows

/-- Mirrors Graph::from_png after decoding: build the vertices, populate
adjacency, reduce, find the boundary vertices and index the first two of
them as start and end.  The indexing boundary_vertices[0] and
boundary_vertices[1] panics (None) when fewer than two were found; the
advisory println when the count differs from two does not affect the
result. -/
def fromRaster (img : Raster) : Option Graph := do
  let vertices0 := create_vertices img
  let vertices1 := populate_vertex_neighbors vertices0
  let vertices ← reduce_vertex_count vertices1
  let boundary := find_boundary_vertices vertices img.width img.height
  let s ← boundary.get? 0
  let e ← boundary.get? 1
  pure (Graph.mk s e vertices)

/-- Outcome of running a Rust loop in the model: diverge when the fuel ran
out (the loop would keep running), panic for an index out of bounds, ok for
a normal return. -/
inductive RunRes (α : Type) where
  | diverge : RunRes α
  | panic : RunRes α
  | ok : α → RunRes α
deriving DecidableEq, Repr

/-- Auxiliary loop of reconstruct_path, with explicit fuel: look up the
parent entry of cur (a panic when cur is out of bounds), stop on a None
parent, otherwise push the parent and recurse. -/
def reconstructAux (parent_map : List (Option Nat)) :
    Nat → Nat → List Nat → RunRes (List Nat)
  | 0, _, _ => .diverge
  | fuel + 1, cur, path =>
    match parent_map.get? cur with
    | none => .panic
    | some none => .ok path.reverse
    | some (some p) => reconstructAux parent_map fuel p (path ++ [p])

/-- Mirrors reconstruct_path: walk the parent map from target, collecting
indices, then reverse.  The fuel length + 1 is exact: a walk that has not
stopped after length + 1 lookups has repeated an index, so the parent map
has a cycle on the walk and the Rust loop runs forever, which is the
diverge outcome. -/
def reconstruct_path (parent_map : List (Option Nat)) (target : Nat) :
    RunRes (List Nat) :=
  reconstructAux parent_map (parent_map.length + 1) target [target]

/-- Generic fuel-driven loop driver for the step functions below: ok (inl s)
continues with state s, ok (inr r) returns r. -/
def loopRun {σ α : Type} (step : σ → RunRes (σ ⊕ α)) :
    Nat → σ → RunRes α
  | 0, _ => .diverge
  | fuel + 1, s =>
    match step s with
    | .diverge => .diverge
    | .panic => .panic
    | .ok (Sum.inl s') => loopRun step fuel s'
    | .ok (Sum.inr r) => .ok r

/-- State after k continuing iterations of a step function, None when the
loop stopped (returned, panicked or diverged) before k steps. -/
def stepIter {σ α : Type} (step : σ → RunRes (σ ⊕ α)) :
    Nat → σ → Option σ
  | 0, s => some s
  | k + 1, s =>
    match step s with
    | .ok (Sum.inl s') => stepIter step k s'
    | _ => none

/-- Mirrors the PathfindingAlgorithm enum of src/pathfinding.rs (the source
spells the third variant Djikstra). -/
inductive PathfindingAlgorithm where
  | DepthFirst
  | BreadthFirst
  | Djikstra
deriving DecidableEq, Repr

/-- State of the iterative depth first search: the explicit stack, the
visited flags and the parent map. -/
structure DfsSt where
  stack : List Nat
  visited : List Bool
  parent : List (Option Nat)
deriving DecidableEq, Repr

/-- One iteration of the dfs_iterative loop: pop the stack (the Rust Vec
pops from the back, modelled with the head of the list), return the
reconstructed path when the popped vertex is the end, otherwise mark it
visited when fresh and push its unvisited neighbors, writing their parent
entries. -/
def dfsStep (g : Graph) (s : DfsSt) : RunRes (DfsSt ⊕ Option (List Nat)) :=
  match s.stack with
  | [] => .ok (Sum.inr none)
  | current :: rest =>
    if current = g.endv then
      match reconstruct_path s.parent g.endv with
      | .ok p => .ok (Sum.inr (some p))
      | .panic => .panic
      | .diverge => .diverge
    else
      match s.visited.get? current with
      | none => .panic
      | some true => .ok (Sum.inl (DfsSt.mk rest s.visited s.parent))
      | some false =>
        let visited := s.visited.set current true
        match g.vertices.get? current with
        | none => .panic
        | some vx =>
          match vx.neighbors.foldlM
            (fun (acc : List Nat × List (Option Nat)) (e : Nat × Int) =>
              match visited.get? e.1 with
              | none => none
              | some true => some acc
              | some false => do
                let pm ← setChecked acc.2 e.1 (some current)
                pure (e.1 :: acc.1, pm))
            (rest, s.parent) with
          | none => .panic
          | some (stack', parent') =>
            .ok (Sum.inl (DfsSt.mk stack' visited parent'))

/-- Initial state of dfs_iterative: the stack holds start, nothing visited,
no parents. -/
def dfsInit (g : Graph) : DfsSt :=
  DfsSt.mk [g.start]
    (List.replicate g.vertices.length false)
    (List.replicate g.vertices.length none)

/-- Mirrors dfs_iterative, run with the given fuel. -/
def dfs_iterative (g : Graph) (fuel : Nat) : RunRes (Option (List Nat)) :=
  loopRun (dfsStep g) fuel (dfsInit g)

/-- State of the breadth first search: the FIFO queue, the visited flags
and the parent map. -/
structure BfsSt where
  queue : List Nat
  visited : List Bool
  parent : List (Option Nat)
deriving DecidableEq, Repr

/-- One iteration of the bfs loop: pop the queue front, return the
reconstructed path when the popped vertex is the end, otherwise mark every
unvisited neighbor visited, write its parent entry and push it to the
back. -/
def bfsStep (g : Graph) (s : BfsSt) : RunRes (BfsSt ⊕ Option (List Nat)) :=
  match s.queue with
  | [] => .ok (Sum.inr none)
  | current :: rest =>
    if current = g.endv then
      match reconstruct_path s.parent g.endv with
      | .ok p => .ok (Sum.inr (some p))
      | .panic => .panic
      | .diverge => .diverge
    else
      match g.vertices.get? current with
      | none => .panic
      | some vx =>
        match vx.neighbors.foldlM
          (fun (acc : List Nat × List Bool × List (Option Nat)) (e : Nat × Int) =>
            match acc.2.1.get? e.1 with
            | none => none
            | some true => some acc
            | some false => do
              let vis ← setChecked acc.2.1 e.1 true
              let pm ← setChecked acc.2.2 e.1 (some current)
              pure (acc.1 ++ [e.1], vis, pm))
          (rest, s.visited, s.parent) with
        | none => .panic
        | some (queue', visited', parent') =>
          .ok (Sum.inl (BfsSt.mk queue' visited' parent'))

/-- Initial state of bfs: queue holds start and visited[start] is set, a
panic when start is out of bounds. -/
def bfsInit (g : Graph) : Option BfsSt := do
  let visited ← setChecked (List.replicate g.vertices.length false) g.start true
  pure (BfsSt.mk [g.start] visited (List.replicate g.vertices.length none))

/-- Mirrors bfs, run with the given fuel. -/
def bfs (g : Graph) (fuel : Nat) : RunRes (Option (List Nat)) :=
  match bfsInit g with
  | none => .panic
  | some s => loopRun (bfsStep g) fuel s

/-- Remove a minimum-cost entry from the heap, modelling BinaryHeap.pop
with the reversed Ord of struct State: the popped entry has minimal cost;
ties, which the Rust heap breaks arbitrarily, go to the earlier entry. -/
def popMin : List (Int × Nat) → Option ((Int × Nat) × List (Int × Nat))
  | [] => none
  | e :: rest =>
    match popMin rest with
    | none => some (e, [])
    | some (m, rest') => if e.1 ≤ m.1 then some (e, rest) else some (m, e :: rest')

/-- Comparison cost > dists[position] where the right side may be the
f32::MAX infinity (None): a finite cost never exceeds it. -/
def gtD (c : Int) : Option Int → Bool
  | some d => c > d
  | none => false

/-- Comparison next_dist < dists[neighbor] where the right side may be the
f32::MAX infinity (None): a finite candidate is always below it. -/
def ltD (c : Int) : Option Int → Bool
  | some d => c < d
  | none => true

/-- State of the priority search: best distances (None is the f32::MAX
initialisation), the parent map and the pending heap entries. -/
structure DijSt where
  dists : List (Option Int)
  parent : List (Option Nat)
  heap : List (Int × Nat)
deriving DecidableEq, Repr

/-- One iteration of the dijkstra loop: pop a minimum entry, return the
reconstructed path when it is the end, skip it when stale, otherwise relax
every neighbor whose candidate distance strictly improves, writing distance
and parent and pushing a fresh entry. -/
def dijStep (g : Graph) (s : DijSt) : RunRes (DijSt ⊕ Option (List Nat)) :=
  match popMin s.heap with
  | none => .ok (Sum.inr none)
  | some ((cost, position), heap') =>
    if position = g.endv then
      match reconstruct_path s.parent g.endv with
      | .ok p => .ok (Sum.inr (some p))
      | .panic => .panic
      | .diverge => .diverge
    else
      match s.dists.get? position with
      | none => .panic
      | some dcur =>
        if gtD cost dcur then
          .ok (Sum.inl (DijSt.mk s.dists s.parent heap'))
        else
          match g.vertices.get? position with
          | none => .panic
          | some vx =>
            match vx.neighbors.foldlM
              (fun (acc : DijSt) (e : Nat × Int) =>
                let next_dist := cost + e.2
                match acc.dists.get? e.1 with
                | none => none
                | some dn =>
                  if ltD next_dist dn then do
                    let ds ← setChecked acc.dists e.1 (some next_dist)
                    let pm ← setChecked acc.parent e.1 (some position)
                    pure (DijSt.mk ds pm (acc.heap ++ [(next_dist, e.1)]))
                  else
                    some acc)
              (DijSt.mk s.dists s.parent heap') with
            | none => .panic
            | some s' => .ok (Sum.inl s')

/-- Initial state of dijkstra: dists[start] set to zero (a panic when start
is out of bounds), the heap holding the single entry (0, start). -/
def dijInit (g : Graph) : Option DijSt := do
  let dists ← setChecked
    (List.replicate g.vertices.length (none : Option Int)) g.start (some 0)
  pure (DijSt.mk dists (List.replicate g.vertices.length none) [(0, g.start)])

/-- Mirrors dijkstra, run with the given fuel. -/
def dijkstra (g : Graph) (fuel : Nat) : RunRes (Option (List Nat)) :=
  match dijInit g with
  | none => .panic
  | some s => loopRun (dijStep g) fuel s

/-- Mirrors solve_graph: dispatch on the algorithm variant. -/
def solve_graph (g : Graph) (algo : PathfindingAlgorithm) (fuel : Nat) :
    RunRes (Option (List Nat)) :=
  match algo with
  | .DepthFirst => dfs_iterative g fuel
  | .BreadthFirst => bfs g fuel
  | .Djikstra => dijkstra g fuel

/-- Mirrors calculate_cost: for each consecutive pair of the solution, scan
the neighbor list of the earlier vertex for the first edge to the later one
and add its weight; a missing edge contributes nothing.  Indexing the
vertex list panics (None) when a solution entry is out of bounds. -/
def calculate_cost (g : Graph) (solution : List Nat) : Option Int :=
  (List.range (solution.length - 1)).foldlM
    (fun (tot_cost : Int) (i : Nat) => do
      let current ← solution.get? i
      let next ← solution.get? (i + 1)
      let vx ← g.vertices.get? current
      match vx.neighbors.find? (fun e => e.1 = next) with
      | some e => pure (tot_cost + e.2)
      | none => pure tot_cost)
    0

/-! ### Basic list helper lemmas -/

theorem get?_set_self {α : Type} {l : List α} {i : Nat} {a : α}
    (h : i < l.length) : (l.set i a).get? i = some a := by
  rw [List.get?_eq_getElem?, List.getElem?_set_self h]

theorem get?_set_ne {α : Type} {l : List α} {i j : Nat} {a : α}
    (h : i ≠ j) : (l.set i a).get? j = l.get? j := by
  rw [List.get?_eq_getElem?, List.getElem?_set_ne h, List.get?_eq_getElem?]

theorem get?_replicate {α : Type} {n i : Nat} {a : α} (h : i < n) :
    (List.replicate n a).get? i = some a := by
  rw [List.get?_eq_getElem?, List.getElem?_replicate]
  simp [h]

theorem setChecked_some {α : Type} {l l' : List α} {i : Nat} {a : α}
    (h : setChecked l i a = some l') :
    i < l.length ∧ l' = l.set i a := by
  unfold setChecked at h
  split at h
  · exact ⟨by assumption, by simpa using h.symm⟩
  · exact absurd h (by simp)

theorem get?_mem {α : Type} {l : List α} {i : Nat} {a : α}
    (h : l.get? i = some a) : a ∈ l :=
  List.get?_mem h

/-! ### Path predicates over the embedded graph -/

/-- There is a stored edge from u to v with weight w. -/
def EdgeW (g : Graph) (u v : Nat) (w : Int) : Prop :=
  ∃ vx, g.vertices.get? u = some vx ∧ (v, w) ∈ vx.neighbors

/-- There is a stored edge from u to v (any weight). -/
def EdgeTo (g : Graph) (u v : Nat) : Prop :=
  ∃ w, EdgeW g u v w

/-- A nonempty sequence of vertices that starts at s, ends at t and follows
stored edges: the path notion of the specification. -/
def PathFromTo (g : Graph) (s t : Nat) (p : List Nat) : Prop :=
  p.head? = some s ∧ p.getLast? = some t ∧ List.Chain' (EdgeTo g) p

/-- Vertex v is reachable from s along exactly m stored edges. -/
inductive ReachN (g : Graph) (s : Nat) : Nat → Nat → Prop
  | refl : ReachN g s s 0
  | tail {x v : Nat} {m : Nat} : ReachN g s x m → EdgeTo g x v → ReachN g s v (m + 1)

theorem pathFromTo_reachN {g : Graph} {s t : Nat} {p : List Nat}
    (h : PathFromTo g s t p) : ReachN g s t (p.length - 1) := by
  obtain ⟨hh, hl, hc⟩ := h
  induction p using List.reverseRecOn generalizing t with
  | nil => simp at hh
  | append_singleton q v ih =>
    rcases q with _ | ⟨a, q'⟩
    · simp at hh hl
      subst hh; subst hl
      exact ReachN.refl
    · have hlast : v = t := by
        rw [List.getLast?_concat] at hl
        exact Option.some_injective _ hl
      subst hlast
      have hc' := List.chain'_append.mp hc
      have hq : List.Chain' (EdgeTo g) (a :: q') := hc'.1
      have hlq : ∃ x, (a :: q').getLast? = some x ∧ EdgeTo g x v := by
        obtain ⟨-, -, h3⟩ := hc'
        refine ⟨(a :: q').getLast (by simp), by simp [List.getLast?_eq_getLast], ?_⟩
        refine h3 ((a :: q').getLast (by simp)) ?_ v (by simp)
        simp [List.getLast?_eq_getLast]
      obtain ⟨x, hx, hedge⟩ := hlq
      have hr := ih (t := x) (by simpa using hh) hx hq
      have hlen : (a :: q').length - 1 + 1 = ((a :: q') ++ [v]).length - 1 := by
        simp
      exact hlen ▸ hr.tail hedge

/-! ### Reconstruction lemma: structure of a successfully rebuilt path -/

/-- Consecutive entries of l satisfy: the parent of the later one is the
earlier one. -/
def LinkedBack (parent_map : List (Option Nat)) (l : List Nat) : Prop :=
  List.Chain' (fun u v => parent_map.get? v = some (some u)) l

theorem reconstructAux_ok {parent_map : List (Option Nat)} :
    ∀ (fuel cur : Nat) (acc p : List Nat),
      reconstructAux parent_map fuel cur acc = .ok p →
      ∃ tail, p.reverse = acc ++ tail ∧
        List.Chain' (fun x y => parent_map.get? x = some (some y)) (cur :: tail) ∧
        parent_map.get? ((cur :: tail).getLast (by simp)) = some none := by
  intro fuel
  induction fuel with
  | zero => intro cur acc p h; simp [reconstructAux] at h
  | succ n ih =>
    intro cur acc p h
    unfold reconstructAux at h
    rcases hcur : parent_map.get? cur with _ | pc
    · rw [hcur] at h; cases h
    · rw [hcur] at h
      rcases pc with _ | u
      · cases h
        refine ⟨[], by simp, List.chain'_singleton _, by simpa using hcur⟩
      · obtain ⟨tail, hrev, hch, hlast⟩ := ih u (acc ++ [u]) p h
        refine ⟨u :: tail, by simpa using hrev, ?_, ?_⟩
        · exact List.chain'_cons.mpr ⟨hcur, hch⟩
        · simpa [List.getLast_cons] using hlast

theorem get?_some_lt {α : Type} {l : List α} {i : Nat} {a : α}
    (h : l.get? i = some a) : i < l.length := by
  rw [List.get?_eq_getElem?] at h
  exact (List.getElem?_eq_some.mp h).1

/-! ### C10: the sampler tests only the red channel -/

/-- C10.  The Grid Sampler classifies a cell as traversable exactly when
the red channel of its pixel is nonzero: a position inside the raster is
the position of a sampled vertex iff its red channel is nonzero, whatever
the green and blue channels hold. -/
theorem sampler_red_channel_only (img : Raster) (x y : Nat)
    (hx : x < img.width) (hy : y < img.height) :
    (∃ v ∈ create_vertices img, v.pos = Coord.mk x y) ↔
      (img.pix x y).red ≠ 0 := by
  unfold create_vertices
  constructor
  · rintro ⟨v, hv, hpos⟩
    rw [List.mem_flatMap] at hv
    obtain ⟨y', hy', hv⟩ := hv
    rw [List.mem_filterMap] at hv
    obtain ⟨x', hx', hv⟩ := hv
    split at hv
    · cases hv
      simp only [Coord.mk.injEq] at hpos
      obtain ⟨rfl, rfl⟩ := hpos
      assumption
    · cases hv
  · intro hred
    refine ⟨Vertex.mk (Coord.mk x y) [], ?_, rfl⟩
    rw [List.mem_flatMap]
    refine ⟨y, List.mem_range.mpr hy, ?_⟩
    rw [List.mem_filterMap]
    exact ⟨x, List.mem_range.mpr hx, by simp [hred]⟩

/-- C10 witness: a concrete raster with a pure green pixel, treated as a
wall, and a red pixel, treated as open. -/
theorem sampler_red_channel_only_witness :
    ¬ (∃ v ∈ create_vertices (Raster.mk 2 1
        (fun x _ => if x = 0 then Rgb.mk 0 255 0 else Rgb.mk 9 0 0)),
        v.pos = Coord.mk 0 0) ∧
    (∃ v ∈ create_vertices (Raster.mk 2 1
        (fun x _ => if x = 0 then Rgb.mk 0 255 0 else Rgb.mk 9 0 0)),
        v.pos = Coord.mk 1 0) := by
  constructor
  · intro h
    have := (sampler_red_channel_only _ 0 0 (by decide) (by decide)).mp h
    simp at this
  · exact (sampler_red_channel_only _ 1 0 (by decide) (by decide)).mpr (by decide)

/-! ### C1: the degree-2 collapse, including the weight_b + weight_b slip -/

theorem updateFirst_append {p q : List (Nat × Int)} {i : Nat} {w : Int}
    {e : Nat × Int} (hp : ∀ x ∈ p, x.1 ≠ i) :
    updateFirst (p ++ (i, w) :: q) i e = p ++ e :: q := by
  induction p with
  | nil => simp [updateFirst]
  | cons hd tl ih =>
    have hhd : hd.1 ≠ i := hp hd (by simp)
    simp only [List.cons_append, updateFirst, if_neg hhd]
    rw [show tl.append ((i, w) :: q) = tl ++ (i, w) :: q from rfl,
      ih (fun x hx => hp x (by simp [hx]))]

/-- C1.  When the reducer processes a vertex i that currently has exactly
the two neighbors (a, wa) and (b, wb), the step rewrites the unique edge of
a that pointed to i into an edge to b with weight wa + wb, rewrites the
unique edge of b that pointed to i into an edge to a with the slipped
weight wb + wb, clears the neighbor list of i while keeping its slot, and
leaves every other vertex untouched. -/
theorem reducer_degree_two_collapse
    (vs : List Vertex) (i a b : Nat) (wa wb wia wib : Int)
    (vi va vb : Vertex) (pa qa pb qb : List (Nat × Int))
    (hi : vs.get? i = some vi)
    (hnb : vi.neighbors = [(a, wa), (b, wb)])
    (hab : a ≠ b) (hai : a ≠ i) (hbi : b ≠ i)
    (ha : vs.get? a = some va) (hb : vs.get? b = some vb)
    (hpa : va.neighbors = pa ++ (i, wia) :: qa)
    (hpa' : ∀ x ∈ pa, x.1 ≠ i)
    (hpb : vb.neighbors = pb ++ (i, wib) :: qb)
    (hpb' : ∀ x ∈ pb, x.1 ≠ i) :
    ∃ vs', reduceStep vs i = some vs' ∧
      vs'.get? a = some (Vertex.mk va.pos (pa ++ (b, wa + wb) :: qa)) ∧
      vs'.get? b = some (Vertex.mk vb.pos (pb ++ (a, wb + wb) :: qb)) ∧
      vs'.get? i = some (Vertex.mk vi.pos []) ∧
      vs'.length = vs.length ∧
      ∀ j, j ≠ a → j ≠ b → j ≠ i → vs'.get? j = vs.get? j := by
  obtain ⟨vip, vinbs⟩ := vi
  simp only at hnb
  subst hnb
  have hUa : updateFirst va.neighbors i (b, wa + wb) = pa ++ (b, wa + wb) :: qa := by
    rw [hpa, updateFirst_append hpa']
  have hUb : updateFirst vb.neighbors i (a, wb + wb) = pb ++ (a, wb + wb) :: qb := by
    rw [hpb, updateFirst_append hpb']
  have h1 : (vs.set a (Vertex.mk va.pos (pa ++ (b, wa + wb) :: qa))).get? b
      = some vb := by rw [get?_set_ne hab, hb]
  have h2 : ((vs.set a (Vertex.mk va.pos (pa ++ (b, wa + wb) :: qa))).set b
        (Vertex.mk vb.pos (pb ++ (a, wb + wb) :: qb))).get? i
      = some (Vertex.mk vip [(a, wa), (b, wb)]) := by
    rw [get?_set_ne hbi, get?_set_ne hai, hi]
  refine ⟨((vs.set a (Vertex.mk va.pos (pa ++ (b, wa + wb) :: qa))).set b
    (Vertex.mk vb.pos (pb ++ (a, wb + wb) :: qb))).set i
      (Vertex.mk vip []), ?_, ?_, ?_, ?_, ?_, ?_⟩
  · unfold reduceStep
    rw [hi]
    simp only [ha, hUa, h1, hUb, h2]
  · rw [get?_set_ne (fun h => hai h.symm), get?_set_ne hab.symm,
      get?_set_self (by simpa using get?_some_lt ha)]
  · rw [get?_set_ne (fun h => hbi h.symm),
      get?_set_self (by simpa using get?_some_lt hb)]
  · rw [get?_set_self (by simpa using get?_some_lt hi)]
  · simp
  · intro j hja hjb hji
    rw [get?_set_ne (fun h => hji h.symm), get?_set_ne (fun h => hjb h.symm),
      get?_set_ne (fun h => hja h.symm)]

/-- C1 witness: the collapse applied to a concrete three-vertex corridor
with distinct weights, exhibiting wa + wb on one side and wb + wb on the
other. -/
theorem reducer_degree_two_collapse_witness :
    ∃ vs', reduceStep [Vertex.mk (Coord.mk 0 0) [(1, 5)],
        Vertex.mk (Coord.mk 1 0) [(0, 5), (2, 7)],
        Vertex.mk (Coord.mk 2 0) [(1, 7)]] 1 = some vs' ∧
      vs'.get? 0 = some (Vertex.mk (Coord.mk 0 0) ([] ++ (2, 5 + 7) :: [])) ∧
      vs'.get? 2 = some (Vertex.mk (Coord.mk 2 0) ([] ++ (0, 7 + 7) :: [])) ∧
      vs'.get? 1 = some (Vertex.mk (Coord.mk 1 0) []) ∧
      vs'.length = 3 ∧
      ∀ j, j ≠ 0 → j ≠ 2 → j ≠ 1 →
        vs'.get? j = [Vertex.mk (Coord.mk 0 0) [(1, 5)],
          Vertex.mk (Coord.mk 1 0) [(0, 5), (2, 7)],
          Vertex.mk (Coord.mk 2 0) [(1, 7)]].get? j := by
  have h := reducer_degree_two_collapse
    [Vertex.mk (Coord.mk 0 0) [(1, 5)],
     Vertex.mk (Coord.mk 1 0) [(0, 5), (2, 7)],
     Vertex.mk (Coord.mk 2 0) [(1, 7)]]
    1 0 2 5 7 5 7
    (Vertex.mk (Coord.mk 1 0) [(0, 5), (2, 7)])
    (Vertex.mk (Coord.mk 0 0) [(1, 5)])
    (Vertex.mk (Coord.mk 2 0) [(1, 7)])
    [] [] [] []
    (by decide) (by decide) (by decide) (by decide) (by decide)
    (by decide) (by decide) (by decide) (by simp) (by decide) (by simp)
  obtain ⟨vs', hstep, h0, h2, h1, hlen, hrest⟩ := h
  exact ⟨vs', hstep, h0, h2, h1, by simpa using hlen, hrest⟩

/-! ### C6: order of the boundary scan -/

theorem foldl_append_eq {α β : Type} (f : α → List β) :
    ∀ (l : List α) (init : List β),
      l.foldl (fun acc x => acc ++ f x) init = init ++ l.flatMap f := by
  intro l
  induction l with
  | nil => simp
  | cons hd tl ih => intro init; simp [ih]

theorem boundary_body_eq (vs : List Vertex) (height : Nat) :
    (fun (acc : List Nat) (x : Nat) =>
      let acc1 := match posLookup vs (Coord.mk x 0) with
        | some idx => acc ++ [idx]
        | none => acc
      match posLookup vs (Coord.mk x (height - 1)) with
      | some idx => acc1 ++ [idx]
      | none => acc1) =
    fun acc x => acc ++
      ((posLookup vs (Coord.mk x 0)).toList ++
        (posLookup vs (Coord.mk x (height - 1))).toList) := by
  funext acc x
  rcases h1 : posLookup vs (Coord.mk x 0) with _ | i <;>
    rcases h2 : posLookup vs (Coord.mk x (height - 1)) with _ | j <;>
      simp [h1, h2]

theorem boundary_side_body_eq (vs : List Vertex) (width : Nat) :
    (fun (acc : List Nat) (k : Nat) =>
      let y := k + 1
      let acc1 := match posLookup vs (Coord.mk 0 y) with
        | some idx => acc ++ [idx]
        | none => acc
      match posLookup vs (Coord.mk (width - 1) y) with
      | some idx => acc1 ++ [idx]
      | none => acc1) =
    fun acc k => acc ++
      ((posLookup vs (Coord.mk 0 (k + 1))).toList ++
        (posLookup vs (Coord.mk (width - 1) (k + 1))).toList) := by
  funext acc k
  rcases h1 : posLookup vs (Coord.mk 0 (k + 1)) with _ | i <;>
    rcases h2 : posLookup vs (Coord.mk (width - 1) (k + 1)) with _ | j <;>
      simp [h1, h2]

/-- C6 amended.  The boundary scan emits, for each column x from left to
right, the open top-row cell of x and then the open bottom-row cell of x
(interleaved per column, not all top cells first), followed by, for each
interior row from top to bottom, the open left-column cell and then the
open right-column cell. -/
theorem boundary_scan_order (vs : List Vertex) (width height : Nat) :
    find_boundary_vertices vs width height =
      ((List.range width).flatMap fun x =>
        (posLookup vs (Coord.mk x 0)).toList ++
          (posLookup vs (Coord.mk x (height - 1))).toList) ++
      ((List.range (height - 1 - 1)).flatMap fun k =>
        (posLookup vs (Coord.mk 0 (k + 1))).toList ++
          (posLookup vs (Coord.mk (width - 1) (k + 1))).toList) := by
  unfold find_boundary_vertices
  rw [boundary_body_eq vs height, boundary_side_body_eq vs width,
    foldl_append_eq, foldl_append_eq]
  simp

/-- The boundary order asserted by the specification sentence of C6,
modelled from the spec words: all open top-row cells left to right, then
all open bottom-row cells left to right, then for each interior row the
left-column cell followed by the right-column cell. -/
def claimed_boundary_order (vs : List Vertex) (width height : Nat) :
    List Nat :=
  ((List.range width).flatMap fun x => (posLookup vs (Coord.mk x 0)).toList) ++
  ((List.range width).flatMap fun x =>
    (posLookup vs (Coord.mk x (height - 1))).toList) ++
  ((List.range (height - 1 - 1)).flatMap fun k =>
    (posLookup vs (Coord.mk 0 (k + 1))).toList ++
      (posLookup vs (Coord.mk (width - 1) (k + 1))).toList)

/-- C6 counterexample: on a 2 by 2 raster whose open cells are the
bottom-left and top-right pixels, the scan returns the bottom-row vertex
before the top-row vertex, so the order claimed by the specification (all
top-row cells first) does not hold. -/
theorem boundary_scan_order_spec_violation :
    find_boundary_vertices
        (create_vertices (Raster.mk 2 2 (fun x y =>
          if (x = 1 && y = 0) || (x = 0 && y = 1) then Rgb.mk 9 0 0
          else Rgb.mk 0 0 0))) 2 2 = [1, 0] ∧
    claimed_boundary_order
        (create_vertices (Raster.mk 2 2 (fun x y =>
          if (x = 1 && y = 0) || (x = 0 && y = 1) then Rgb.mk 9 0 0
          else Rgb.mk 0 0 0))) 2 2 = [0, 1] ∧
    (create_vertices (Raster.mk 2 2 (fun x y =>
        if (x = 1 && y = 0) || (x = 0 && y = 1) then Rgb.mk 9 0 0
        else Rgb.mk 0 0 0))).get? 0 =
      some (Vertex.mk (Coord.mk 1 0) []) ∧
    (create_vertices (Raster.mk 2 2 (fun x y =>
        if (x = 1 && y = 0) || (x = 0 && y = 1) then Rgb.mk 9 0 0
        else Rgb.mk 0 0 0))).get? 1 =
      some (Vertex.mk (Coord.mk 0 1) []) := by
  refine ⟨?_, ?_, ?_, ?_⟩ <;> decide

/-! ### C2: best-effort start and end selection -/

theorem get?_of_lt {α : Type} {l : List α} {i : Nat} (h : i < l.length) :
    ∃ a, l.get? i = some a := by
  rw [List.get?_eq_getElem?]
  exact ⟨l.get ⟨i, h⟩, List.getElem?_eq_some.mpr ⟨h, rfl⟩⟩

theorem posLookup_lt {vs : List Vertex} {p : Coord} {i : Nat}
    (h : posLookup vs p = some i) : i < vs.length := by
  unfold posLookup at h
  have key : ∀ (l : List Nat) (acc : Option Nat),
      (∀ j, acc = some j → j < vs.length) →
      ∀ j, l.foldl (fun acc i =>
        match vs.get? i with
        | some v => if v.pos = p then some i else acc
        | none => acc) acc = some j → j < vs.length := by
    intro l
    induction l with
    | nil => intro acc hacc j hj; exact hacc j hj
    | cons hd tl ih =>
      intro acc hacc j hj
      rw [List.foldl_cons] at hj
      refine ih _ ?_ j hj
      intro j' hj'
      rcases hv : vs.get? hd with _ | v
      · rw [hv] at hj'; exact hacc j' hj'
      · rw [hv] at hj'
        by_cases hvp : v.pos = p
        · simp only [hvp, if_pos] at hj'
          cases hj'
          exact get?_some_lt hv
        · simp only [hvp, if_neg, if_false] at hj'
          exact hacc j' hj'
  exact key _ none (by simp) i h

/-- Every neighbor index of a vertex list is a valid index. -/
def ValidTargets (vs : List Vertex) : Prop :=
  ∀ v ∈ vs, ∀ e ∈ v.neighbors, e.1 < vs.length

theorem create_neighbors_nil {img : Raster} {v : Vertex}
    (h : v ∈ create_vertices img) : v.neighbors = [] := by
  unfold create_vertices at h
  rw [List.mem_flatMap] at h
  obtain ⟨y, -, h⟩ := h
  rw [List.mem_filterMap] at h
  obtain ⟨x, -, h⟩ := h
  split at h
  · cases h; rfl
  · cases h

theorem populate_create_valid (img : Raster) :
    ValidTargets (populate_vertex_neighbors (create_vertices img)) := by
  intro v hv e he
  unfold populate_vertex_neighbors at hv
  rw [List.mem_map] at hv
  obtain ⟨v0, hv0, rfl⟩ := hv
  simp only [create_neighbors_nil hv0, List.nil_append] at he
  rw [List.mem_filterMap] at he
  obtain ⟨p, -, hp⟩ := he
  rcases hq : posLookup (create_vertices img) p with _ | i
  · rw [hq] at hp; cases hp
  · rw [hq] at hp
    cases hp
    have := posLookup_lt hq
    simpa [populate_vertex_neighbors] using this

theorem updateFirst_targets {t : Nat} {e : Nat × Int} {n : Nat}
    (he : e.1 < n) :
    ∀ (l : List (Nat × Int)), (∀ x ∈ l, x.1 < n) →
      ∀ x ∈ updateFirst l t e, x.1 < n := by
  intro l
  induction l with
  | nil => intro _ x hx; simp [updateFirst] at hx
  | cons hd tl ih =>
    intro hl x hx
    rw [updateFirst] at hx
    by_cases hhd : hd.1 = t
    · rw [if_pos hhd] at hx
      rcases List.mem_cons.mp hx with hx | hx
      · subst hx; exact he
      · exact hl x (List.mem_cons_of_mem _ hx)
    · rw [if_neg hhd] at hx
      rcases List.mem_cons.mp hx with hx | hx
      · subst hx; exact hl x (by simp)
      · exact ih (fun y hy => hl y (List.mem_cons_of_mem _ hy)) x hx

theorem reduceStep_ok {vs : List Vertex} {i : Nat}
    (hval : ValidTargets vs) (hi : i < vs.length) :
    ∃ vs', reduceStep vs i = some vs' ∧ vs'.length = vs.length ∧
      ValidTargets vs' := by
  obtain ⟨vi, hvi⟩ := get?_of_lt hi
  obtain ⟨vip, vinbs⟩ := vi
  rcases vinbs with _ | ⟨⟨a, wa⟩, _ | ⟨⟨b, wb⟩, _ | _⟩⟩
  · exact ⟨vs, by unfold reduceStep; rw [hvi], rfl, hval⟩
  · exact ⟨vs, by unfold reduceStep; rw [hvi], rfl, hval⟩
  pick_goal 2
  · exact ⟨vs, by unfold reduceStep; rw [hvi], rfl, hval⟩
  · have hmemi : Vertex.mk vip [(a, wa), (b, wb)] ∈ vs := get?_mem hvi
    have ha : a < vs.length := hval _ hmemi (a, wa) (by simp)
    have hb : b < vs.length := hval _ hmemi (b, wb) (by simp)
    obtain ⟨va, hva⟩ := get?_of_lt ha
    have hval1 : ValidTargets (vs.set a
        (Vertex.mk va.pos (updateFirst va.neighbors i (b, wa + wb)))) := by
      intro v hv e he
      rw [List.length_set]
      rcases List.mem_or_eq_of_mem_set hv with hv | hv
      · exact hval v hv e he
      · subst hv
        exact updateFirst_targets hb _ (fun x hx => hval va (get?_mem hva) x hx) e he
    obtain ⟨vb, hvb⟩ := get?_of_lt (l := vs.set a
      (Vertex.mk va.pos (updateFirst va.neighbors i (b, wa + wb))))
      (by simpa using hb)
    have hval2 : ValidTargets (((vs.set a
        (Vertex.mk va.pos (updateFirst va.neighbors i (b, wa + wb)))).set b
          (Vertex.mk vb.pos (updateFirst vb.neighbors i (a, wb + wb))))) := by
      intro v hv e he
      simp only [List.length_set]
      rcases List.mem_or_eq_of_mem_set hv with hv | hv
      · have := hval1 v hv e he
        simpa using this
      · subst hv
        refine updateFirst_targets (by simpa using ha) _ (fun x hx => ?_) e he
        have := hval1 vb (get?_mem hvb) x hx
        simpa using this
    obtain ⟨vi2, hvi2⟩ := get?_of_lt (l := ((vs.set a
        (Vertex.mk va.pos (updateFirst va.neighbors i (b, wa + wb)))).set b
          (Vertex.mk vb.pos (updateFirst vb.neighbors i (a, wb + wb)))))
      (by simpa using hi)
    refine ⟨((vs.set a (Vertex.mk va.pos (updateFirst va.neighbors i
        (b, wa + wb)))).set b (Vertex.mk vb.pos (updateFirst vb.neighbors i
          (a, wb + wb)))).set i (Vertex.mk vi2.pos []), ?_, ?_, ?_⟩
    · unfold reduceStep
      rw [hvi]
      simp only [hva, hvb, hvi2]
    · simp
    · intro v hv e he
      simp only [List.length_set]
      rcases List.mem_or_eq_of_mem_set hv with hv | hv
      · have := hval2 v hv e he
        simpa using this
      · subst hv
        simp at he

theorem reduce_ok {vs : List Vertex} (hval : ValidTargets vs) :
    ∃ vs', reduce_vertex_count vs = some vs' ∧ vs'.length = vs.length ∧
      ValidTargets vs' := by
  unfold reduce_vertex_count
  have key : ∀ (l : List Nat) (cur : List Vertex),
      (∀ i ∈ l, i < vs.length) → cur.length = vs.length → ValidTargets cur →
      ∃ vs', l.foldlM reduceStep cur = some vs' ∧ vs'.length = vs.length ∧
        ValidTargets vs' := by
    intro l
    induction l with
    | nil => intro cur _ hlen hv; exact ⟨cur, rfl, hlen, hv⟩
    | cons hd tl ih =>
      intro cur hmem hlen hv
      obtain ⟨cur', hstep, hlen', hv'⟩ :=
        reduceStep_ok hv (by rw [hlen]; exact hmem hd (by simp))
      obtain ⟨vs', hfold, hl, hvv⟩ := ih cur'
        (fun i hi => hmem i (by simp [hi])) (hlen'.trans hlen) hv'
      exact ⟨vs', by simpa [List.foldlM_cons, hstep] using hfold, hl, hvv⟩
  exact key _ vs (fun i hi => List.mem_range.mp hi) rfl hval

/-- C2 amended.  Graph construction always reaches boundary selection (the
reduction pass cannot fail on sampled vertices); when the detector finds at
least two perimeter vertices construction completes using the first two
indices as start and end, silently discarding any extras; but when it finds
fewer than two, construction fails hard with an index panic (modelled as
None) after printing the advisory, instead of completing. -/
theorem boundary_selection_best_effort (img : Raster) :
    ∃ vs2, reduce_vertex_count (populate_vertex_neighbors
        (create_vertices img)) = some vs2 ∧
      (∀ s e, (find_boundary_vertices vs2 img.width img.height).get? 0 = some s →
        (find_boundary_vertices vs2 img.width img.height).get? 1 = some e →
        fromRaster img = some (Graph.mk s e vs2)) ∧
      ((find_boundary_vertices vs2 img.width img.height).length < 2 →
        fromRaster img = none) := by
  obtain ⟨vs2, hred, -, -⟩ := reduce_ok (populate_create_valid img)
  refine ⟨vs2, hred, ?_, ?_⟩
  · intro s e h0 h1
    simp only [fromRaster, hred, Option.bind_eq_bind, Option.some_bind, h0, h1]
    rfl
  · intro hlt
    have h1 : (find_boundary_vertices vs2 img.width img.height).get? 1 = none :=
      List.get?_eq_none.mpr (by omega)
    rcases h0 : (find_boundary_vertices vs2 img.width img.height).get? 0 with _ | s
    · simp only [fromRaster, hred, Option.bind_eq_bind, Option.some_bind, h0,
        Option.none_bind]
    · simp only [fromRaster, hred, Option.bind_eq_bind, Option.some_bind, h0, h1,
        Option.none_bind]

/-- C2 witness: a fully open 2 by 2 raster yields four boundary vertices;
construction succeeds, keeps the first two indices 0 and 2 as start and
end, and discards the extras. -/
theorem boundary_selection_best_effort_witness :
    fromRaster (Raster.mk 2 2 (fun _ _ => Rgb.mk 1 0 0)) =
      some (Graph.mk 0 2
        [Vertex.mk (Coord.mk 0 0) [], Vertex.mk (Coord.mk 1 0) [],
         Vertex.mk (Coord.mk 0 1) [], Vertex.mk (Coord.mk 1 1) []]) ∧
    (find_boundary_vertices
        [Vertex.mk (Coord.mk 0 0) [], Vertex.mk (Coord.mk 1 0) [],
         Vertex.mk (Coord.mk 0 1) [], Vertex.mk (Coord.mk 1 1) []] 2 2).length
      = 4 := by
  obtain ⟨vs2, hred, hsel, -⟩ :=
    boundary_selection_best_effort (Raster.mk 2 2 (fun _ _ => Rgb.mk 1 0 0))
  have hv : vs2 = [Vertex.mk (Coord.mk 0 0) [], Vertex.mk (Coord.mk 1 0) [],
      Vertex.mk (Coord.mk 0 1) [], Vertex.mk (Coord.mk 1 1) []] := by
    have : reduce_vertex_count (populate_vertex_neighbors
        (create_vertices (Raster.mk 2 2 (fun _ _ => Rgb.mk 1 0 0)))) =
        some [Vertex.mk (Coord.mk 0 0) [], Vertex.mk (Coord.mk 1 0) [],
          Vertex.mk (Coord.mk 0 1) [], Vertex.mk (Coord.mk 1 1) []] := by decide
    rw [this] at hred
    exact (Option.some_injective _ hred).symm
  subst hv
  exact ⟨hsel 0 2 (by decide) (by decide), by decide⟩

/-- C2 counterexample: a raster with exactly one open perimeter cell.  The
claim asserts construction completes with only an advisory; in fact the
boundary list has a single element and construction fails (the Rust
indexing of boundary_vertices[1] panics, modelled as None). -/
theorem boundary_shortfall_is_hard_error :
    (find_boundary_vertices
      (create_vertices (Raster.mk 3 3 (fun x y =>
        if x = 1 && y = 0 then Rgb.mk 8 0 0 else Rgb.mk 0 0 0))) 3 3).length
      = 1 ∧
    fromRaster (Raster.mk 3 3 (fun x y =>
      if x = 1 && y = 0 then Rgb.mk 8 0 0 else Rgb.mk 0 0 0)) = none := by
  exact ⟨by decide, by decide⟩

/-! ### C3: all-wall rasters -/

/-- C3 amended.  For an all-wall raster the Grid Sampler indeed produces an
empty vertex list, but no graph results: construction itself fails with an
index panic at boundary selection, and each of the three strategies applied
directly to a graph with an empty vertex list fails with an index panic
(the depth first search on its first iteration) instead of returning the
no-path outcome. -/
theorem all_wall_behaviour (img : Raster)
    (hwall : ∀ x y, x < img.width → y < img.height → (img.pix x y).red = 0) :
    create_vertices img = [] ∧ fromRaster img = none ∧
    (∀ s e fuel, bfs (Graph.mk s e []) fuel = .panic) ∧
    (∀ s e fuel, dijkstra (Graph.mk s e []) fuel = .panic) ∧
    (∀ s e fuel, dfs_iterative (Graph.mk s e []) (fuel + 1) = .panic) := by
  have hcv : create_vertices img = [] := by
    rw [List.eq_nil_iff_forall_not_mem]
    intro v hv
    unfold create_vertices at hv
    rw [List.mem_flatMap] at hv
    obtain ⟨y, hy, hv⟩ := hv
    rw [List.mem_filterMap] at hv
    obtain ⟨x, hx, hv⟩ := hv
    rw [hwall x y (List.mem_range.mp hx) (List.mem_range.mp hy)] at hv
    simp at hv
  refine ⟨hcv, ?_, ?_, ?_, ?_⟩
  · have hplu : ∀ p, posLookup [] p = none := fun p => rfl
    simp only [fromRaster, hcv]
    have hpop : populate_vertex_neighbors [] = [] := rfl
    rw [hpop]
    have hrednil : reduce_vertex_count [] = some [] := rfl
    rw [hrednil]
    have hbnil : find_boundary_vertices [] img.width img.height = [] := by
      rw [boundary_scan_order]
      simp [hplu]
    simp [hbnil]
  · intro s e fuel
    unfold bfs bfsInit
    simp [setChecked]
  · intro s e fuel
    unfold dijkstra dijInit
    simp [setChecked]
  · intro s e fuel
    unfold dfs_iterative dfsInit
    rw [loopRun]
    unfold dfsStep
    simp only [List.replicate]
    by_cases hse : s = e
    · rw [if_pos hse]
      have : reconstruct_path ([] : List (Option Nat)) e = .panic := by
        unfold reconstruct_path reconstructAux
        rfl
      rw [this]
    · rw [if_neg hse]
      rfl

/-- C3 witness: the theorem applied to a concrete all-black 2 by 2 raster
and concrete strategy arguments. -/
theorem all_wall_behaviour_witness :
    create_vertices (Raster.mk 2 2 (fun _ _ => Rgb.mk 0 0 0)) = [] ∧
    fromRaster (Raster.mk 2 2 (fun _ _ => Rgb.mk 0 0 0)) = none ∧
    bfs (Graph.mk 0 0 []) 5 = .panic ∧
    dijkstra (Graph.mk 0 0 []) 5 = .panic ∧
    dfs_iterative (Graph.mk 0 0 []) 5 = .panic := by
  obtain ⟨h1, h2, h3, h4, h5⟩ :=
    all_wall_behaviour (Raster.mk 2 2 (fun _ _ => Rgb.mk 0 0 0))
      (fun x y _ _ => rfl)
  exact ⟨h1, h2, h3 0 0 5, h4 0 0 5, h5 0 0 4⟩

/-- C3 counterexample: on the all-black raster the claimed scenario is
impossible: construction does not produce a graph at all (None), and the
strategies on the empty-vertex graph panic rather than reporting that no
path was found. -/
theorem all_wall_no_graceful_no_path :
    fromRaster (Raster.mk 2 2 (fun _ _ => Rgb.mk 0 0 0)) = none ∧
    bfs (Graph.mk 0 0 []) 9 ≠ .ok none ∧
    dfs_iterative (Graph.mk 0 0 []) 9 ≠ .ok none ∧
    dijkstra (Graph.mk 0 0 []) 9 ≠ .ok none := by
  refine ⟨by decide, by decide, by decide, by decide⟩

/-! ### C8: idempotence of the reducer -/

/-- Neighbor-list length of slot j, None when j is out of bounds. -/
def nlen (vs : List Vertex) (j : Nat) : Option Nat :=
  (vs.get? j).map (fun v => v.neighbors.length)

theorem updateFirst_length (l : List (Nat × Int)) (t : Nat) (e : Nat × Int) :
    (updateFirst l t e).length = l.length := by
  induction l with
  | nil => rfl
  | cons hd tl ih =>
    unfold updateFirst
    split <;> simp [ih]

theorem reduceStep_no2 {vs : List Vertex} {i : Nat} {vi : Vertex}
    (hvi : vs.get? i = some vi) (h2 : vi.neighbors.length ≠ 2) :
    reduceStep vs i = some vs := by
  obtain ⟨vip, nbs⟩ := vi
  rcases nbs with _ | ⟨⟨a, wa⟩, _ | ⟨⟨b, wb⟩, _ | _⟩⟩
  · unfold reduceStep; rw [hvi]
  · unfold reduceStep; rw [hvi]
  · exact absurd (by simp : ({ pos := vip, neighbors := [(a, wa), (b, wb)] }
      : Vertex).neighbors.length = 2) h2
  · unfold reduceStep; rw [hvi]

theorem reduceStep_nlen {vs vs' : List Vertex} {i : Nat}
    (h : reduceStep vs i = some vs') :
    vs'.length = vs.length ∧
    (∀ j, nlen vs' j = nlen vs j ∨ nlen vs' j = some 0) ∧
    (∀ vi, vs.get? i = some vi → vi.neighbors.length = 2 →
      nlen vs' i = some 0) := by
  unfold reduceStep at h
  rcases hvi : vs.get? i with _ | vi
  · rw [hvi] at h; cases h
  · rw [hvi] at h
    obtain ⟨vip, nbs⟩ := vi
    rcases nbs with _ | ⟨⟨a, wa⟩, _ | ⟨⟨b, wb⟩, _ | _⟩⟩
    · cases h
      refine ⟨rfl, fun j => Or.inl rfl, fun vi hvi2 h2 => ?_⟩
      cases hvi2; simp at h2
    · cases h
      refine ⟨rfl, fun j => Or.inl rfl, fun vi hvi2 h2 => ?_⟩
      cases hvi2; simp at h2
    · rcases hga : vs.get? a with _ | va
      · simp only [hga] at h
        cases h
      · simp only [hga] at h
        rcases hgb : (vs.set a (Vertex.mk va.pos
            (updateFirst va.neighbors i (b, wa + wb)))).get? b with _ | vb
        · simp only [hgb] at h
          cases h
        · simp only [hgb] at h
          rcases hgi : ((vs.set a (Vertex.mk va.pos
              (updateFirst va.neighbors i (b, wa + wb)))).set b
                (Vertex.mk vb.pos (updateFirst vb.neighbors i
                  (a, wb + wb)))).get? i with _ | vi2
          · simp only [hgi] at h
            cases h
          · simp only [hgi] at h
            cases h
            refine ⟨by simp, ?_, ?_⟩
            · intro j
              by_cases hji : j = i
              · subst hji
                right
                unfold nlen
                rw [get?_set_self (by
                  simpa using get?_some_lt hgi)]
                rfl
              · have hstep1 : nlen (vs.set a (Vertex.mk va.pos
                    (updateFirst va.neighbors i (b, wa + wb)))) b = nlen vs b := by
                  by_cases hba : b = a
                  · unfold nlen
                    rw [hba, get?_set_self (get?_some_lt hga), hga]
                    simp [updateFirst_length]
                  · unfold nlen
                    rw [get?_set_ne (fun hh => hba hh.symm)]
                by_cases hjb : j = b
                · left
                  have hib : i ≠ b := fun hh => hji (hjb.trans hh.symm)
                  have hnew : nlen ((((vs.set a (Vertex.mk va.pos
                      (updateFirst va.neighbors i (b, wa + wb)))).set b
                        (Vertex.mk vb.pos (updateFirst vb.neighbors i
                          (a, wb + wb)))).set i (Vertex.mk vi2.pos []))) b
                      = nlen (vs.set a (Vertex.mk va.pos
                        (updateFirst va.neighbors i (b, wa + wb)))) b := by
                    unfold nlen
                    rw [get?_set_ne hib, get?_set_self
                      (by simpa using get?_some_lt hgb), hgb]
                    simp [updateFirst_length]
                  rw [hjb, hnew, hstep1]
                · by_cases hja : j = a
                  · left
                    have hia : i ≠ a := fun hh => hji (hja.trans hh.symm)
                    have hba : b ≠ a := fun hh => hjb (hja.trans hh.symm)
                    unfold nlen
                    rw [hja, get?_set_ne hia, get?_set_ne hba,
                      get?_set_self (get?_some_lt hga), hga]
                    simp [updateFirst_length]
                  · left
                    unfold nlen
                    rw [get?_set_ne (fun hh => hji hh.symm),
                      get?_set_ne (fun hh => hjb hh.symm),
                      get?_set_ne (fun hh => hja hh.symm)]
            · intro vi hvi2 h2
              unfold nlen
              rw [get?_set_self (by simpa using get?_some_lt hgi)]
              rfl
    · cases h
      refine ⟨rfl, fun j => Or.inl rfl, fun vi hvi2 h2 => ?_⟩
      cases hvi2; simp at h2

theorem reduce_no2_after {vs vs' : List Vertex}
    (h : reduce_vertex_count vs = some vs') : ∀ j, nlen vs' j ≠ some 2 := by
  unfold reduce_vertex_count at h
  have key : ∀ (l : List Nat) (cur out : List Vertex),
      l.foldlM reduceStep cur = some out →
      (∀ j, nlen cur j = some 2 → j ∈ l) →
      ∀ j, nlen out j ≠ some 2 := by
    intro l
    induction l with
    | nil =>
      intro cur out hfold hcur j
      cases hfold
      intro h2
      exact absurd (hcur j h2) (by simp)
    | cons hd tl ih =>
      intro cur out hfold hcur j
      rw [List.foldlM_cons] at hfold
      rcases hstep : reduceStep cur hd with _ | cur1
      · rw [hstep] at hfold; cases hfold
      · rw [hstep] at hfold
        simp only [Option.bind_eq_bind, Option.some_bind] at hfold
        obtain ⟨-, hdisj, hclear⟩ := reduceStep_nlen hstep
        refine ih cur1 out hfold ?_ j
        intro j' hj'
        rcases hdisj j' with hsame | h0
        · rw [hsame] at hj'
          have hmem := hcur j' hj'
          rcases List.mem_cons.mp hmem with hh | hh
          · subst hh
            rcases hq : cur.get? j' with _ | vj
            · unfold nlen at hj'
              rw [hq] at hj'
              cases hj'
            · have h2 : vj.neighbors.length = 2 := by
                unfold nlen at hj'
                rw [hq] at hj'
                simpa using hj'
              have hcl := hclear vj hq h2
              rw [hsame] at hcl
              rw [hcl] at hj'
              cases hj'
          · exact hh
        · rw [h0] at hj'
          cases hj'
  intro j
  refine key _ vs vs' h ?_ j
  intro j' hj'
  rcases hq : vs.get? j' with _ | vj
  · unfold nlen at hj'; rw [hq] at hj'; cases hj'
  · exact List.mem_range.mpr (get?_some_lt hq)

/-- C8.  The reducer is idempotent: whenever a first pass succeeds with
output vertex list vs2, a second pass on vs2 succeeds and leaves every
vertex (hence every neighbor list) unchanged. -/
theorem reducer_idempotent {vs vs2 : List Vertex}
    (h : reduce_vertex_count vs = some vs2) :
    reduce_vertex_count vs2 = some vs2 := by
  have h2 := reduce_no2_after h
  unfold reduce_vertex_count
  have key : ∀ (l : List Nat), (∀ i ∈ l, i < vs2.length) →
      l.foldlM reduceStep vs2 = some vs2 := by
    intro l
    induction l with
    | nil => intro _; rfl
    | cons hd tl ih =>
      intro hmem
      rw [List.foldlM_cons]
      obtain ⟨vi, hvi⟩ := get?_of_lt (hmem hd (by simp))
      have hno2 : vi.neighbors.length ≠ 2 := by
        intro hcon
        refine h2 hd ?_
        unfold nlen
        rw [hvi]
        simp [hcon]
      rw [reduceStep_no2 hvi hno2]
      simp only [Option.bind_eq_bind, Option.some_bind]
      exact ih (fun i hi => hmem i (by simp [hi]))
  exact key _ (fun i hi => List.mem_range.mp hi)

/-- C8 witness: the three-cell corridor collapses in one pass and the
second pass leaves the result unchanged. -/
theorem reducer_idempotent_witness :
    reduce_vertex_count
        [Vertex.mk (Coord.mk 0 0) [(1, 1)],
         Vertex.mk (Coord.mk 1 0) [(0, 1), (2, 1)],
         Vertex.mk (Coord.mk 2 0) [(1, 1)]] =
      some [Vertex.mk (Coord.mk 0 0) [(2, 2)],
        Vertex.mk (Coord.mk 1 0) [],
        Vertex.mk (Coord.mk 2 0) [(0, 2)]] ∧
    reduce_vertex_count
        [Vertex.mk (Coord.mk 0 0) [(2, 2)],
         Vertex.mk (Coord.mk 1 0) [],
         Vertex.mk (Coord.mk 2 0) [(0, 2)]] =
      some [Vertex.mk (Coord.mk 0 0) [(2, 2)],
        Vertex.mk (Coord.mk 1 0) [],
        Vertex.mk (Coord.mk 2 0) [(0, 2)]] := by
  have h1 : reduce_vertex_count
      [Vertex.mk (Coord.mk 0 0) [(1, 1)],
       Vertex.mk (Coord.mk 1 0) [(0, 1), (2, 1)],
       Vertex.mk (Coord.mk 2 0) [(1, 1)]] =
    some [Vertex.mk (Coord.mk 0 0) [(2, 2)],
      Vertex.mk (Coord.mk 1 0) [],
      Vertex.mk (Coord.mk 2 0) [(0, 2)]] := by decide
  exact ⟨h1, reducer_idempotent h1⟩

/-! ### C7: parent map writes -/

theorem replicate_none_no_some {n v u : Nat}
    (h : (List.replicate n (none : Option Nat)).get? v = some (some u)) :
    False := by
  by_cases hv : v < n
  · rw [get?_replicate hv] at h
    cases h
  · rw [List.get?_eq_none.mpr (by simpa using hv)] at h
    cases h

/-- Parent entries only exist on visited vertices. -/
def BfsWInv (s : BfsSt) : Prop :=
  ∀ v u, s.parent.get? v = some (some u) → s.visited.get? v = some true

theorem bfs_fold_mono {g : Graph} {current : Nat}
    (nbrs : List (Nat × Int)) :
    ∀ (q : List Nat) (vis : List Bool) (pm : List (Option Nat))
      (q' : List Nat) (vis' : List Bool) (pm' : List (Option Nat)),
      (∀ v u, pm.get? v = some (some u) → vis.get? v = some true) →
      nbrs.foldlM
        (fun (acc : List Nat × List Bool × List (Option Nat)) (e : Nat × Int) =>
          match acc.2.1.get? e.1 with
          | none => none
          | some true => some acc
          | some false => do
            let vis2 ← setChecked acc.2.1 e.1 true
            let pm2 ← setChecked acc.2.2 e.1 (some current)
            pure (acc.1 ++ [e.1], vis2, pm2))
        (q, vis, pm) = some (q', vis', pm') →
      (∀ v u, pm'.get? v = some (some u) → vis'.get? v = some true) ∧
      (∀ v u, pm.get? v = some (some u) → pm'.get? v = some (some u)) ∧
      (∀ v, vis.get? v = some true → vis'.get? v = some true) := by
  induction nbrs with
  | nil =>
    intro q vis pm q' vis' pm' hinv hfold
    cases hfold
    exact ⟨hinv, fun v u h => h, fun v h => h⟩
  | cons e tl ih =>
    intro q vis pm q' vis' pm' hinv hfold
    rw [List.foldlM_cons] at hfold
    rcases hv : vis.get? e.1 with _ | b
    · rw [hv] at hfold
      cases hfold
    · rw [hv] at hfold
      rcases b with _ | _
      · -- unvisited: mark, write parent, enqueue
        simp only [Option.bind_eq_bind] at hfold
        rcases hsv : setChecked vis e.1 true with _ | vis2
        · rw [hsv] at hfold; cases hfold
        · rw [hsv] at hfold
          rcases hsp : setChecked pm e.1 (some current) with _ | pm2
          · rw [hsp] at hfold
            simp at hfold
          · rw [hsp] at hfold
            simp only [Option.some_bind] at hfold
            obtain ⟨hlt_v, rfl⟩ := setChecked_some hsv
            obtain ⟨hlt_p, rfl⟩ := setChecked_some hsp
            have hinv2 : ∀ v u, (pm.set e.1 (some current)).get? v
                = some (some u) → (vis.set e.1 true).get? v = some true := by
              intro v u hvu
              by_cases hve : v = e.1
              · subst hve
                rw [get?_set_self hlt_v]
              · rw [get?_set_ne (fun hh => hve hh.symm)] at hvu
                rw [get?_set_ne (fun hh => hve hh.symm)]
                exact hinv v u hvu
            obtain ⟨h1, h2, h3⟩ := ih _ _ _ _ _ _ hinv2 hfold
            refine ⟨h1, ?_, ?_⟩
            · intro v u hvu
              refine h2 v u ?_
              by_cases hve : v = e.1
              · subst hve
                have hcontra := hinv e.1 u hvu
                rw [hv] at hcontra
                cases hcontra
              · rw [get?_set_ne (fun hh => hve hh.symm)]
                exact hvu
            · intro v hvv
              refine h3 v ?_
              by_cases hve : v = e.1
              · subst hve
                rw [get?_set_self hlt_v]
              · rw [get?_set_ne (fun hh => hve hh.symm)]
                exact hvv
      · -- already visited: no change
        exact ih _ _ _ _ _ _ hinv hfold

theorem bfs_step_mono {g : Graph} {s s' : BfsSt}
    (hinv : BfsWInv s) (hstep : bfsStep g s = .ok (Sum.inl s')) :
    BfsWInv s' ∧
    (∀ v u, s.parent.get? v = some (some u) → s'.parent.get? v = some (some u)) := by
  unfold bfsStep at hstep
  rcases hq : s.queue with _ | ⟨current, rest⟩
  · simp only [hq] at hstep
    cases hstep
  · simp only [hq] at hstep
    by_cases hend : current = g.endv
    · rw [if_pos hend] at hstep
      rcases hrec : reconstruct_path s.parent g.endv with _ | _ | p <;>
        simp only [hrec] at hstep <;> cases hstep
    · rw [if_neg hend] at hstep
      rcases hvx : g.vertices.get? current with _ | vx
      · simp only [hvx] at hstep
        cases hstep
      · simp only [hvx] at hstep
        rcases hfold : vx.neighbors.foldlM
            (fun (acc : List Nat × List Bool × List (Option Nat)) (e : Nat × Int) =>
              match acc.2.1.get? e.1 with
              | none => none
              | some true => some acc
              | some false => do
                let vis2 ← setChecked acc.2.1 e.1 true
                let pm2 ← setChecked acc.2.2 e.1 (some current)
                pure (acc.1 ++ [e.1], vis2, pm2))
            (rest, s.visited, s.parent) with _ | res
        · simp only [hfold] at hstep
          cases hstep
        · simp only [hfold] at hstep
          obtain ⟨q2, vis2, pm2⟩ := res
          cases hstep
          obtain ⟨h1, h2, h3⟩ := @bfs_fold_mono g current
            vx.neighbors rest s.visited s.parent q2 vis2 pm2 hinv hfold
          exact ⟨h1, h2⟩

theorem stepIter_add {σ α : Type} (step : σ → RunRes (σ ⊕ α)) :
    ∀ (m n : Nat) (s : σ),
      stepIter step (m + n) s =
        match stepIter step m s with
        | some s' => stepIter step n s'
        | none => none := by
  intro m
  induction m with
  | zero => intro n s; simp [stepIter]
  | succ k ih =>
    intro n s
    rw [show k + 1 + n = (k + n) + 1 from by omega]
    conv_lhs => rw [stepIter]
    conv_rhs => rw [stepIter]
    rcases hr : step s with _ | _ | r
    · simp only [hr]
    · simp only [hr]
    · rcases r with s1 | r
      · simp only [hr]
        exact ih n s1
      · simp only [hr]

theorem bfs_iter_mono {g : Graph} :
    ∀ (k : Nat) (s s' : BfsSt), BfsWInv s →
      stepIter (bfsStep g) k s = some s' →
      BfsWInv s' ∧
      (∀ v u, s.parent.get? v = some (some u) →
        s'.parent.get? v = some (some u)) := by
  intro k
  induction k with
  | zero =>
    intro s s' hinv hiter
    cases hiter
    exact ⟨hinv, fun v u h => h⟩
  | succ n ih =>
    intro s s' hinv hiter
    unfold stepIter at hiter
    rcases hstep : bfsStep g s with _ | _ | r
    · rw [hstep] at hiter; cases hiter
    · rw [hstep] at hiter; cases hiter
    · rw [hstep] at hiter
      rcases r with s1 | r
      · obtain ⟨hinv1, hmono1⟩ := bfs_step_mono hinv hstep
        obtain ⟨hinv2, hmono2⟩ := ih s1 s' hinv1 hiter
        exact ⟨hinv2, fun v u h => hmono2 v u (hmono1 v u h)⟩
      · cases hiter

/-- C7 amended.  In the breadth-first strategy every parent-map entry is
written at most once: along any run from the initial state, an entry that
holds some parent keeps exactly that parent forever.  (In the depth-first
and priority strategies an entry can be rewritten, see the counterexample;
reconstruction nevertheless only returns along a none-terminated chain.) -/
theorem bfs_parent_written_once (g : Graph) (s0 s1 s2 : BfsSt)
    (k1 k2 v u : Nat)
    (hinit : bfsInit g = some s0) (hk : k1 ≤ k2)
    (h1 : stepIter (bfsStep g) k1 s0 = some s1)
    (h2 : stepIter (bfsStep g) k2 s0 = some s2)
    (hset : s1.parent.get? v = some (some u)) :
    s2.parent.get? v = some (some u) := by
  have hinv0 : BfsWInv s0 := by
    intro v' u' hvu
    unfold bfsInit at hinit
    rcases hsv : setChecked (List.replicate g.vertices.length false)
        g.start true with _ | vis0
    · rw [hsv] at hinit; cases hinit
    · rw [hsv] at hinit
      simp only [Option.bind_eq_bind, Option.some_bind] at hinit
      cases hinit
      exact absurd hvu replicate_none_no_some
  obtain ⟨hinv1, -⟩ := bfs_iter_mono k1 s0 s1 hinv0 h1
  have hsplit : stepIter (bfsStep g) (k1 + (k2 - k1)) s0 = some s2 := by
    rw [show k1 + (k2 - k1) = k2 from by omega]
    exact h2
  rw [stepIter_add] at hsplit
  rw [h1] at hsplit
  obtain ⟨-, hmono⟩ := bfs_iter_mono (k2 - k1) s1 s2 hinv1 hsplit
  exact hmono v u hset

/-- C7 witness: on a three-vertex path graph, the parent entry of vertex 1
written at step one is still intact at step two. -/
theorem bfs_parent_written_once_witness :
    (BfsSt.mk [2] [true, true, true] [none, some 0, some 1]).parent.get? 1
      = some (some 0) := by
  refine bfs_parent_written_once
    (Graph.mk 0 2 [Vertex.mk (Coord.mk 0 0) [(1, 1)],
      Vertex.mk (Coord.mk 1 0) [(0, 1), (2, 1)],
      Vertex.mk (Coord.mk 2 0) [(1, 1)]])
    (BfsSt.mk [0] [true, false, false] [none, none, none])
    (BfsSt.mk [1] [true, true, false] [none, some 0, none])
    (BfsSt.mk [2] [true, true, true] [none, some 0, some 1])
    1 2 1 0 (by decide) (by decide) (by decide) (by decide) (by decide)

/-- C7 counterexample: in the depth-first strategy the parent entry of
vertex 1 is written twice with different values (first 0, then 2), so the
claim that every strategy writes each entry at most once is false. -/
theorem dfs_parent_rewritten :
    (stepIter (dfsStep (Graph.mk 0 3
        [Vertex.mk (Coord.mk 0 0) [(1, 1), (2, 1)],
         Vertex.mk (Coord.mk 1 0) [(0, 1), (2, 1)],
         Vertex.mk (Coord.mk 2 0) [(0, 1), (1, 1)],
         Vertex.mk (Coord.mk 3 0) []])) 1
      (dfsInit (Graph.mk 0 3
        [Vertex.mk (Coord.mk 0 0) [(1, 1), (2, 1)],
         Vertex.mk (Coord.mk 1 0) [(0, 1), (2, 1)],
         Vertex.mk (Coord.mk 2 0) [(0, 1), (1, 1)],
         Vertex.mk (Coord.mk 3 0) []]))).map (fun s => s.parent.get? 1)
      = some (some (some 0)) ∧
    (stepIter (dfsStep (Graph.mk 0 3
        [Vertex.mk (Coord.mk 0 0) [(1, 1), (2, 1)],
         Vertex.mk (Coord.mk 1 0) [(0, 1), (2, 1)],
         Vertex.mk (Coord.mk 2 0) [(0, 1), (1, 1)],
         Vertex.mk (Coord.mk 3 0) []])) 2
      (dfsInit (Graph.mk 0 3
        [Vertex.mk (Coord.mk 0 0) [(1, 1), (2, 1)],
         Vertex.mk (Coord.mk 1 0) [(0, 1), (2, 1)],
         Vertex.mk (Coord.mk 2 0) [(0, 1), (1, 1)],
         Vertex.mk (Coord.mk 3 0) []]))).map (fun s => s.parent.get? 1)
      = some (some (some 2)) := by
  exact ⟨by decide, by decide⟩

/-! ### C9: returned paths run from start to end -/

theorem popMin_none {l : List (Int × Nat)} (h : popMin l = none) : l = [] := by
  cases l with
  | nil => rfl
  | cons e rest =>
    unfold popMin at h
    rcases hp : popMin rest with _ | m
    · simp only [hp] at h
      cases h
    · simp only [hp] at h
      by_cases hle : e.1 ≤ m.1.1 <;> simp [hle] at h

theorem popMin_cover {l : List (Int × Nat)} {m : Int × Nat}
    {rest : List (Int × Nat)} (h : popMin l = some (m, rest)) :
    m ∈ l ∧ (∀ e ∈ rest, e ∈ l) ∧ (∀ e ∈ l, e = m ∨ e ∈ rest) := by
  induction l generalizing m rest with
  | nil => cases h
  | cons x tl ih =>
    unfold popMin at h
    rcases hp : popMin tl with _ | ⟨m0, rest0⟩
    · simp only [hp] at h
      cases h
      have := popMin_none hp
      subst this
      exact ⟨by simp, by simp, fun e he => by simpa using he⟩
    · simp only [hp] at h
      by_cases hle : x.1 ≤ m0.1
      · rw [if_pos hle] at h
        cases h
        exact ⟨by simp, fun e he => by simp [he], fun e he => by
          rcases List.mem_cons.mp he with he | he
          · exact Or.inl he
          · exact Or.inr he⟩
      · rw [if_neg hle] at h
        cases h
        obtain ⟨hm0, hr0, hcov⟩ := ih hp
        refine ⟨by simp [hm0], ?_, ?_⟩
        · intro e he
          rcases List.mem_cons.mp he with he | he
          · simp [he]
          · simp [hr0 e he]
        · intro e he
          rcases List.mem_cons.mp he with he | he
          · exact Or.inr (by simp [he])
          · rcases hcov e he with he2 | he2
            · exact Or.inl he2
            · exact Or.inr (by simp [he2])

theorem popMin_min {l : List (Int × Nat)} {m : Int × Nat}
    {rest : List (Int × Nat)} (h : popMin l = some (m, rest)) :
    ∀ e ∈ l, m.1 ≤ e.1 := by
  induction l generalizing m rest with
  | nil => cases h
  | cons x tl ih =>
    unfold popMin at h
    rcases hp : popMin tl with _ | ⟨m0, rest0⟩
    · simp only [hp] at h
      cases h
      have := popMin_none hp
      subst this
      intro e he
      rcases List.mem_cons.mp he with he | he
      · simp [he]
      · simp at he
    · simp only [hp] at h
      by_cases hle : x.1 ≤ m0.1
      · rw [if_pos hle] at h
        cases h
        intro e he
        rcases List.mem_cons.mp he with he | he
        · simp [he]
        · exact hle.trans (ih hp e he)
      · rw [if_neg hle] at h
        cases h
        intro e he
        rcases List.mem_cons.mp he with he | he
        · subst he
          omega
        · exact ih hp e he

/-- Every written parent entry records a stored edge, and every parent is
itself the start vertex or has its own parent entry. -/
def ParentOk (g : Graph) (P : List (Option Nat)) : Prop :=
  ∀ v u, P.get? v = some (some u) →
    EdgeTo g u v ∧ (u = g.start ∨ ∃ w', P.get? u = some (some w'))

theorem chain'_last_link {α : Type} {R : α → α → Prop} :
    ∀ (l : List α) (a : α), List.Chain' R (a :: l) → l ≠ [] →
      ∃ x t, (a :: l).getLast? = some t ∧ R x t := by
  intro l
  induction l with
  | nil => intro a _ h; exact absurd rfl h
  | cons b l' ih =>
    intro a hch _
    rcases List.chain'_cons.mp hch with ⟨hab, hch'⟩
    rcases l' with _ | ⟨c, l''⟩
    · exact ⟨a, b, by simp, hab⟩
    · obtain ⟨x, t, hlast, hr⟩ := ih b hch' (by simp)
      exact ⟨x, t, by simpa using hlast, hr⟩

/-- Structure of a successfully reconstructed path: when the parent map
satisfies ParentOk and the target is the start vertex or has a parent
entry, the rebuilt path runs from start to target along stored edges. -/
theorem reconstruct_endpoints {g : Graph} {P : List (Option Nat)}
    {p : List Nat} (hP : ParentOk g P)
    (hact : g.endv = g.start ∨ ∃ w', P.get? g.endv = some (some w'))
    (hrec : reconstruct_path P g.endv = .ok p) :
    p.head? = some g.start ∧ p.getLast? = some g.endv ∧
      List.Chain' (EdgeTo g) p := by
  unfold reconstruct_path at hrec
  obtain ⟨tail, hrev, hch, hlast⟩ :=
    reconstructAux_ok (P.length + 1) g.endv [g.endv] p hrec
  simp only [List.singleton_append] at hrev
  have hp : p = (g.endv :: tail).reverse := by
    rw [← hrev, List.reverse_reverse]
  have hlast' : P.get? ((g.endv :: tail).getLast (by simp)) = some none := hlast
  have hstart : (g.endv :: tail).getLast (by simp) = g.start := by
    rcases htail : tail with _ | ⟨t0, tl0⟩
    · simp only [htail, List.getLast_singleton]
      rcases hact with hact | ⟨w', hw'⟩
      · exact hact
      · rw [htail] at hlast'
        simp only [List.getLast_singleton] at hlast'
        rw [hlast'] at hw'
        cases hw'
    · rw [← htail]
      obtain ⟨x, t, hlt, hr⟩ := chain'_last_link tail g.endv hch
        (by rw [htail]; simp)
      have ht : (g.endv :: tail).getLast (by simp) = t := by
        rw [List.getLast?_eq_getLast] at hlt
        exact Option.some_injective _ hlt
      rw [ht]
      obtain ⟨-, hb⟩ := hP x t hr
      rcases hb with hb | ⟨w', hw'⟩
      · exact hb
      · rw [ht] at hlast'
        rw [hlast'] at hw'
        cases hw'
  refine ⟨?_, ?_, ?_⟩
  · rw [hp, List.head?_reverse, List.getLast?_eq_getLast _ (by simp), hstart]
  · rw [hp, List.getLast?_reverse]
    rfl
  · rw [hp]
    rw [List.chain'_reverse]
    refine List.Chain'.imp ?_ hch
    intro a b hab
    exact (hP a b hab).1

theorem loopRun_inv {σ α : Type} (step : σ → RunRes (σ ⊕ α)) (Inv : σ → Prop)
    (R : α → Prop)
    (hpres : ∀ s s', Inv s → step s = .ok (Sum.inl s') → Inv s')
    (hdone : ∀ s r, Inv s → step s = .ok (Sum.inr r) → R r) :
    ∀ (fuel : Nat) (s : σ) (r : α), Inv s → loopRun step fuel s = .ok r → R r := by
  intro fuel
  induction fuel with
  | zero => intro s r _ h; cases h
  | succ n ih =>
    intro s r hinv h
    unfold loopRun at h
    rcases hs : step s with _ | _ | x
    · simp only [hs] at h
      cases h
    · simp only [hs] at h
      cases h
    · simp only [hs] at h
      rcases x with s1 | r1
      · exact ih s1 r (hpres s s1 hinv hs) h
      · cases h
        exact hdone s r hinv hs

/-- Parent map entries remain set (possibly rewritten) once set. -/
def SomeMono (pm pm' : List (Option Nat)) : Prop :=
  ∀ v, (∃ u, pm.get? v = some (some u)) → ∃ u', pm'.get? v = some (some u')

theorem parentOk_set {g : Graph} {pm : List (Option Nat)} {current n : Nat}
    (hP : ParentOk g pm) (hedge : EdgeTo g current n)
    (hcur : current = g.start ∨ ∃ w', pm.get? current = some (some w'))
    (hlt : n < pm.length) :
    ParentOk g (pm.set n (some current)) ∧
      SomeMono pm (pm.set n (some current)) := by
  have hmono : SomeMono pm (pm.set n (some current)) := by
    rintro v ⟨u, hu⟩
    by_cases hv : v = n
    · subst hv
      exact ⟨current, get?_set_self hlt⟩
    · exact ⟨u, by rw [get?_set_ne (fun hh => hv hh.symm)]; exact hu⟩
  refine ⟨?_, hmono⟩
  intro v u hvu
  by_cases hv : v = n
  · subst hv
    rw [get?_set_self hlt] at hvu
    cases hvu
    refine ⟨hedge, ?_⟩
    rcases hcur with hc | ⟨w', hw'⟩
    · exact Or.inl hc
    · exact Or.inr (hmono current ⟨w', hw'⟩)
  · rw [get?_set_ne (fun hh => hv hh.symm)] at hvu
    obtain ⟨he, hb⟩ := hP v u hvu
    refine ⟨he, ?_⟩
    rcases hb with hb | ⟨w', hw'⟩
    · exact Or.inl hb
    · exact Or.inr (hmono u ⟨w', hw'⟩)

theorem dfs_fold_parentOk {g : Graph} {current : Nat}
    (nbrs : List (Nat × Int)) (visited : List Bool)
    (hnb : ∀ e ∈ nbrs, EdgeTo g current e.1) :
    ∀ (st : List Nat) (pm : List (Option Nat)) (st' : List Nat)
      (pm' : List (Option Nat)),
      ParentOk g pm →
      (current = g.start ∨ ∃ w', pm.get? current = some (some w')) →
      (∀ x ∈ st, x = g.start ∨ ∃ w', pm.get? x = some (some w')) →
      nbrs.foldlM
        (fun (acc : List Nat × List (Option Nat)) (e : Nat × Int) =>
          match visited.get? e.1 with
          | none => none
          | some true => some acc
          | some false => do
            let pm2 ← setChecked acc.2 e.1 (some current)
            pure (e.1 :: acc.1, pm2))
        (st, pm) = some (st', pm') →
      ParentOk g pm' ∧
      (∀ x ∈ st', x = g.start ∨ ∃ w', pm'.get? x = some (some w')) := by
  induction nbrs with
  | nil =>
    intro st pm st' pm' hP hcur hst hfold
    cases hfold
    exact ⟨hP, hst⟩
  | cons e tl ih =>
    intro st pm st' pm' hP hcur hst hfold
    rw [List.foldlM_cons] at hfold
    rcases hv : visited.get? e.1 with _ | b
    · rw [hv] at hfold; cases hfold
    · rw [hv] at hfold
      rcases b with _ | _
      · simp only [Option.bind_eq_bind] at hfold
        rcases hsp : setChecked pm e.1 (some current) with _ | pm2
        · rw [hsp] at hfold
          simp at hfold
        · rw [hsp] at hfold
          simp only [Option.some_bind] at hfold
          obtain ⟨hlt, rfl⟩ := setChecked_some hsp
          obtain ⟨hP2, hmono⟩ := parentOk_set hP (hnb e (by simp)) hcur hlt
          refine ih (fun e' he' => hnb e' (by simp [he'])) _ _ _ _ hP2 ?_ ?_ hfold
          · rcases hcur with hc | ⟨w', hw'⟩
            · exact Or.inl hc
            · exact Or.inr (hmono current ⟨w', hw'⟩)
          · intro x hx
            rcases List.mem_cons.mp hx with hx | hx
            · subst hx
              exact Or.inr ⟨current, get?_set_self hlt⟩
            · rcases hst x hx with hc | ⟨w', hw'⟩
              · exact Or.inl hc
              · exact Or.inr (hmono x ⟨w', hw'⟩)
      · exact ih (fun e' he' => hnb e' (by simp [he'])) _ _ _ _ hP hcur hst hfold

/-- The depth first invariant: parent map sound, every stack entry active. -/
def DfsInv (g : Graph) (s : DfsSt) : Prop :=
  ParentOk g s.parent ∧
  ∀ x ∈ s.stack, x = g.start ∨ ∃ w', s.parent.get? x = some (some w')

theorem dfs_step_pres {g : Graph} {s s' : DfsSt}
    (hinv : DfsInv g s) (hstep : dfsStep g s = .ok (Sum.inl s')) :
    DfsInv g s' := by
  obtain ⟨hP, hst⟩ := hinv
  unfold dfsStep at hstep
  rcases hq : s.stack with _ | ⟨current, rest⟩
  · simp only [hq] at hstep
    cases hstep
  · simp only [hq] at hstep
    by_cases hend : current = g.endv
    · rw [if_pos hend] at hstep
      rcases hrec : reconstruct_path s.parent g.endv with _ | _ | p <;>
        simp only [hrec] at hstep <;> cases hstep
    · rw [if_neg hend] at hstep
      rcases hv : s.visited.get? current with _ | b
      · simp only [hv] at hstep
        cases hstep
      · simp only [hv] at hstep
        rcases b with _ | _
        · rcases hvx : g.vertices.get? current with _ | vx
          · simp only [hvx] at hstep
            cases hstep
          · simp only [hvx] at hstep
            rcases hfold : vx.neighbors.foldlM
                (fun (acc : List Nat × List (Option Nat)) (e : Nat × Int) =>
                  match (s.visited.set current true).get? e.1 with
                  | none => none
                  | some true => some acc
                  | some false => do
                    let pm2 ← setChecked acc.2 e.1 (some current)
                    pure (e.1 :: acc.1, pm2))
                (rest, s.parent) with _ | res
            · simp only [hfold] at hstep
              cases hstep
            · simp only [hfold] at hstep
              obtain ⟨st2, pm2⟩ := res
              cases hstep
              have hedges : ∀ e ∈ vx.neighbors, EdgeTo g current e.1 :=
                fun e he => ⟨e.2, vx, hvx, by simpa using he⟩
              obtain ⟨hP2, hst2⟩ := dfs_fold_parentOk vx.neighbors
                (s.visited.set current true) hedges rest s.parent st2 pm2
                hP (hst current (by rw [hq]; simp))
                (fun x hx => hst x (by rw [hq]; simp [hx])) hfold
              exact ⟨hP2, hst2⟩
        · cases hstep
          refine ⟨hP, fun x hx => hst x (by rw [hq]; simp [hx])⟩

theorem dfs_step_done {g : Graph} {s : DfsSt} {p : List Nat}
    (hinv : DfsInv g s) (hstep : dfsStep g s = .ok (Sum.inr (some p))) :
    p.head? = some g.start ∧ p.getLast? = some g.endv ∧
      List.Chain' (EdgeTo g) p := by
  obtain ⟨hP, hst⟩ := hinv
  unfold dfsStep at hstep
  rcases hq : s.stack with _ | ⟨current, rest⟩
  · simp only [hq] at hstep
    cases hstep
  · simp only [hq] at hstep
    by_cases hend : current = g.endv
    · rw [if_pos hend] at hstep
      rcases hrec : reconstruct_path s.parent g.endv with _ | _ | p0 <;>
        simp only [hrec] at hstep
      · cases hstep
      · cases hstep
      · cases hstep
        refine reconstruct_endpoints hP ?_ hrec
        have := hst current (by rw [hq]; simp)
        rw [hend] at this
        exact this
    · rw [if_neg hend] at hstep
      rcases hv : s.visited.get? current with _ | b
      · simp only [hv] at hstep
        cases hstep
      · simp only [hv] at hstep
        rcases b with _ | _
        · rcases hvx : g.vertices.get? current with _ | vx
          · simp only [hvx] at hstep
            cases hstep
          · simp only [hvx] at hstep
            rcases hfold : vx.neighbors.foldlM
                (fun (acc : List Nat × List (Option Nat)) (e : Nat × Int) =>
                  match (s.visited.set current true).get? e.1 with
                  | none => none
                  | some true => some acc
                  | some false => do
                    let pm2 ← setChecked acc.2 e.1 (some current)
                    pure (e.1 :: acc.1, pm2))
                (rest, s.parent) with _ | res
            · simp only [hfold] at hstep
              cases hstep
            · simp only [hfold] at hstep
              obtain ⟨st2, pm2⟩ := res
              cases hstep
        · cases hstep

theorem dfs_run_spec {g : Graph} {fuel : Nat} {p : List Nat}
    (hrun : dfs_iterative g fuel = .ok (some p)) :
    p.head? = some g.start ∧ p.getLast? = some g.endv ∧
      List.Chain' (EdgeTo g) p := by
  unfold dfs_iterative at hrun
  refine loopRun_inv (dfsStep g) (DfsInv g)
    (fun r => ∀ q, r = some q → q.head? = some g.start ∧
      q.getLast? = some g.endv ∧ List.Chain' (EdgeTo g) q)
    (fun s s' hinv hs => dfs_step_pres hinv hs)
    (fun s r hinv hstep q hq => by
      subst hq
      exact dfs_step_done hinv hstep)
    fuel (dfsInit g) (some p) ?_ hrun p rfl
  constructor
  · intro v u hvu
    exact absurd hvu replicate_none_no_some
  · intro x hx
    rcases List.mem_cons.mp hx with hx | hx
    · exact Or.inl hx
    · simp at hx

theorem bfs_fold_parentOk {g : Graph} {current : Nat}
    (nbrs : List (Nat × Int))
    (hnb : ∀ e ∈ nbrs, EdgeTo g current e.1) :
    ∀ (q : List Nat) (vis : List Bool) (pm : List (Option Nat))
      (q' : List Nat) (vis' : List Bool) (pm' : List (Option Nat)),
      ParentOk g pm →
      (current = g.start ∨ ∃ w', pm.get? current = some (some w')) →
      (∀ x ∈ q, x = g.start ∨ ∃ w', pm.get? x = some (some w')) →
      nbrs.foldlM
        (fun (acc : List Nat × List Bool × List (Option Nat)) (e : Nat × Int) =>
          match acc.2.1.get? e.1 with
          | none => none
          | some true => some acc
          | some false => do
            let vis2 ← setChecked acc.2.1 e.1 true
            let pm2 ← setChecked acc.2.2 e.1 (some current)
            pure (acc.1 ++ [e.1], vis2, pm2))
        (q, vis, pm) = some (q', vis', pm') →
      ParentOk g pm' ∧
      (∀ x ∈ q', x = g.start ∨ ∃ w', pm'.get? x = some (some w')) := by
  induction nbrs with
  | nil =>
    intro q vis pm q' vis' pm' hP hcur hq hfold
    cases hfold
    exact ⟨hP, hq⟩
  | cons e tl ih =>
    intro q vis pm q' vis' pm' hP hcur hq hfold
    rw [List.foldlM_cons] at hfold
    rcases hv : vis.get? e.1 with _ | b
    · rw [hv] at hfold; cases hfold
    · rw [hv] at hfold
      rcases b with _ | _
      · simp only [Option.bind_eq_bind] at hfold
        rcases hsv : setChecked vis e.1 true with _ | vis2
        · rw [hsv] at hfold; cases hfold
        · rw [hsv] at hfold
          rcases hsp : setChecked pm e.1 (some current) with _ | pm2
          · rw [hsp] at hfold
            simp at hfold
          · rw [hsp] at hfold
            simp only [Option.some_bind] at hfold
            obtain ⟨hlt, rfl⟩ := setChecked_some hsp
            obtain ⟨hP2, hmono⟩ := parentOk_set hP (hnb e (by simp)) hcur hlt
            refine ih (fun e' he' => hnb e' (by simp [he'])) _ _ _ _ _ _ hP2 ?_ ?_ hfold
            · rcases hcur with hc | ⟨w', hw'⟩
              · exact Or.inl hc
              · exact Or.inr (hmono current ⟨w', hw'⟩)
            · intro x hx
              rcases List.mem_append.mp hx with hx | hx
              · rcases hq x hx with hc | ⟨w', hw'⟩
                · exact Or.inl hc
                · exact Or.inr (hmono x ⟨w', hw'⟩)
              · simp only [List.mem_singleton] at hx
                subst hx
                exact Or.inr ⟨current, get?_set_self hlt⟩
      · exact ih (fun e' he' => hnb e' (by simp [he'])) _ _ _ _ _ _ hP hcur hq hfold

/-- The breadth first invariant used for endpoint soundness. -/
def BfsCInv (g : Graph) (s : BfsSt) : Prop :=
  ParentOk g s.parent ∧
  ∀ x ∈ s.queue, x = g.start ∨ ∃ w', s.parent.get? x = some (some w')

theorem bfs_step_pres2 {g : Graph} {s s' : BfsSt}
    (hinv : BfsCInv g s) (hstep : bfsStep g s = .ok (Sum.inl s')) :
    BfsCInv g s' := by
  obtain ⟨hP, hq⟩ := hinv
  unfold bfsStep at hstep
  rcases hqe : s.queue with _ | ⟨current, rest⟩
  · simp only [hqe] at hstep
    cases hstep
  · simp only [hqe] at hstep
    by_cases hend : current = g.endv
    · rw [if_pos hend] at hstep
      rcases hrec : reconstruct_path s.parent g.endv with _ | _ | p <;>
        simp only [hrec] at hstep <;> cases hstep
    · rw [if_neg hend] at hstep
      rcases hvx : g.vertices.get? current with _ | vx
      · simp only [hvx] at hstep
        cases hstep
      · simp only [hvx] at hstep
        rcases hfold : vx.neighbors.foldlM
            (fun (acc : List Nat × List Bool × List (Option Nat)) (e : Nat × Int) =>
              match acc.2.1.get? e.1 with
              | none => none
              | some true => some acc
              | some false => do
                let vis2 ← setChecked acc.2.1 e.1 true
                let pm2 ← setChecked acc.2.2 e.1 (some current)
                pure (acc.1 ++ [e.1], vis2, pm2))
            (rest, s.visited, s.parent) with _ | res
        · simp only [hfold] at hstep
          cases hstep
        · simp only [hfold] at hstep
          obtain ⟨q2, vis2, pm2⟩ := res
          cases hstep
          have hedges : ∀ e ∈ vx.neighbors, EdgeTo g current e.1 :=
            fun e he => ⟨e.2, vx, hvx, by simpa using he⟩
          obtain ⟨hP2, hq2⟩ := bfs_fold_parentOk vx.neighbors hedges
            rest s.visited s.parent q2 vis2 pm2
            hP (hq current (by rw [hqe]; simp))
            (fun x hx => hq x (by rw [hqe]; simp [hx])) hfold
          exact ⟨hP2, hq2⟩

theorem bfs_step_done {g : Graph} {s : BfsSt} {p : List Nat}
    (hinv : BfsCInv g s) (hstep : bfsStep g s = .ok (Sum.inr (some p))) :
    p.head? = some g.start ∧ p.getLast? = some g.endv ∧
      List.Chain' (EdgeTo g) p := by
  obtain ⟨hP, hq⟩ := hinv
  unfold bfsStep at hstep
  rcases hqe : s.queue with _ | ⟨current, rest⟩
  · simp only [hqe] at hstep
    cases hstep
  · simp only [hqe] at hstep
    by_cases hend : current = g.endv
    · rw [if_pos hend] at hstep
      rcases hrec : reconstruct_path s.parent g.endv with _ | _ | p0 <;>
        simp only [hrec] at hstep
      · cases hstep
      · cases hstep
      · cases hstep
        refine reconstruct_endpoints hP ?_ hrec
        have := hq current (by rw [hqe]; simp)
        rw [hend] at this
        exact this
    · rw [if_neg hend] at hstep
      rcases hvx : g.vertices.get? current with _ | vx
      · simp only [hvx] at hstep
        cases hstep
      · simp only [hvx] at hstep
        rcases hfold : vx.neighbors.foldlM
            (fun (acc : List Nat × List Bool × List (Option Nat)) (e : Nat × Int) =>
              match acc.2.1.get? e.1 with
              | none => none
              | some true => some acc
              | some false => do
                let vis2 ← setChecked acc.2.1 e.1 true
                let pm2 ← setChecked acc.2.2 e.1 (some current)
                pure (acc.1 ++ [e.1], vis2, pm2))
            (rest, s.visited, s.parent) with _ | res
        · simp only [hfold] at hstep
          cases hstep
        · simp only [hfold] at hstep
          obtain ⟨q2, vis2, pm2⟩ := res
          cases hstep

theorem bfs_run_spec {g : Graph} {fuel : Nat} {p : List Nat}
    (hrun : bfs g fuel = .ok (some p)) :
    p.head? = some g.start ∧ p.getLast? = some g.endv ∧
      List.Chain' (EdgeTo g) p := by
  unfold bfs at hrun
  rcases hin : bfsInit g with _ | s0
  · rw [hin] at hrun; cases hrun
  · rw [hin] at hrun
    refine loopRun_inv (bfsStep g) (BfsCInv g)
      (fun r => ∀ q, r = some q → q.head? = some g.start ∧
        q.getLast? = some g.endv ∧ List.Chain' (EdgeTo g) q)
      (fun s s' hinv hs => bfs_step_pres2 hinv hs)
      (fun s r hinv hstep q hq => by
        subst hq
        exact bfs_step_done hinv hstep)
      fuel s0 (some p) ?_ hrun p rfl
    unfold bfsInit at hin
    rcases hsv : setChecked (List.replicate g.vertices.length false)
        g.start true with _ | vis0
    · rw [hsv] at hin; cases hin
    · rw [hsv] at hin
      simp only [Option.bind_eq_bind, Option.some_bind] at hin
      cases hin
      constructor
      · intro v u hvu
        exact absurd hvu replicate_none_no_some
      · intro x hx
        rcases List.mem_cons.mp hx with hx | hx
        · exact Or.inl hx
        · simp at hx

theorem dij_fold_parentOk {g : Graph} {position : Nat} {cost : Int}
    (nbrs : List (Nat × Int))
    (hnb : ∀ e ∈ nbrs, EdgeTo g position e.1) :
    ∀ (acc acc' : DijSt), ParentOk g acc.parent →
      (position = g.start ∨ ∃ w', acc.parent.get? position = some (some w')) →
      (∀ e ∈ acc.heap, e.2 = g.start ∨
        ∃ w', acc.parent.get? e.2 = some (some w')) →
      nbrs.foldlM
        (fun (acc : DijSt) (e : Nat × Int) =>
          let next_dist := cost + e.2
          match acc.dists.get? e.1 with
          | none => none
          | some dn =>
            if ltD next_dist dn then do
              let ds ← setChecked acc.dists e.1 (some next_dist)
              let pm ← setChecked acc.parent e.1 (some position)
              pure (DijSt.mk ds pm (acc.heap ++ [(next_dist, e.1)]))
            else
              some acc)
        acc = some acc' →
      ParentOk g acc'.parent ∧
      (∀ e ∈ acc'.heap, e.2 = g.start ∨
        ∃ w', acc'.parent.get? e.2 = some (some w')) := by
  induction nbrs with
  | nil =>
    intro acc acc' hP hcur hheap hfold
    cases hfold
    exact ⟨hP, hheap⟩
  | cons e tl ih =>
    intro acc acc' hP hcur hheap hfold
    rw [List.foldlM_cons] at hfold
    rcases hd : acc.dists.get? e.1 with _ | dn
    · simp only [hd] at hfold
      cases hfold
    · simp only [hd] at hfold
      by_cases hlt : ltD (cost + e.2) dn
      · rw [if_pos hlt] at hfold
        simp only [Option.bind_eq_bind] at hfold
        rcases hds : setChecked acc.dists e.1 (some (cost + e.2)) with _ | ds2
        · rw [hds] at hfold
          simp at hfold
        · rw [hds] at hfold
          rcases hsp : setChecked acc.parent e.1 (some position) with _ | pm2
          · rw [hsp] at hfold
            simp at hfold
          · rw [hsp] at hfold
            simp only [Option.some_bind] at hfold
            obtain ⟨hlt_p, rfl⟩ := setChecked_some hsp
            obtain ⟨hP2, hmono⟩ := parentOk_set hP (hnb e (by simp)) hcur hlt_p
            refine ih (fun e' he' => hnb e' (by simp [he']))
              (DijSt.mk ds2 (acc.parent.set e.1 (some position))
                (acc.heap ++ [(cost + e.2, e.1)])) acc' hP2 ?_ ?_ hfold
            · rcases hcur with hc | ⟨w', hw'⟩
              · exact Or.inl hc
              · exact Or.inr (hmono position ⟨w', hw'⟩)
            · intro en hen
              rcases List.mem_append.mp hen with hen | hen
              · rcases hheap en hen with hc | ⟨w', hw'⟩
                · exact Or.inl hc
                · exact Or.inr (hmono en.2 ⟨w', hw'⟩)
              · simp only [List.mem_singleton] at hen
                subst hen
                exact Or.inr ⟨position, get?_set_self hlt_p⟩
      · rw [if_neg hlt] at hfold
        exact ih (fun e' he' => hnb e' (by simp [he'])) acc acc' hP hcur hheap hfold

/-- The priority search invariant used for endpoint soundness. -/
def DijCInv (g : Graph) (s : DijSt) : Prop :=
  ParentOk g s.parent ∧
  ∀ e ∈ s.heap, e.2 = g.start ∨ ∃ w', s.parent.get? e.2 = some (some w')

theorem dij_step_pres {g : Graph} {s s' : DijSt}
    (hinv : DijCInv g s) (hstep : dijStep g s = .ok (Sum.inl s')) :
    DijCInv g s' := by
  obtain ⟨hP, hheap⟩ := hinv
  unfold dijStep at hstep
  rcases hpop : popMin s.heap with _ | ⟨⟨cost, position⟩, heap'⟩
  · simp only [hpop] at hstep
    cases hstep
  · simp only [hpop] at hstep
    obtain ⟨hmem, hrest, -⟩ := popMin_cover hpop
    by_cases hend : position = g.endv
    · rw [if_pos hend] at hstep
      rcases hrec : reconstruct_path s.parent g.endv with _ | _ | p <;>
        simp only [hrec] at hstep <;> cases hstep
    · rw [if_neg hend] at hstep
      rcases hd : s.dists.get? position with _ | dcur
      · simp only [hd] at hstep
        cases hstep
      · simp only [hd] at hstep
        by_cases hstale : gtD cost dcur
        · rw [if_pos hstale] at hstep
          cases hstep
          exact ⟨hP, fun e he => hheap e (hrest e he)⟩
        · rw [if_neg hstale] at hstep
          rcases hvx : g.vertices.get? position with _ | vx
          · simp only [hvx] at hstep
            cases hstep
          · simp only [hvx] at hstep
            rcases hfold : vx.neighbors.foldlM
                (fun (acc : DijSt) (e : Nat × Int) =>
                  let next_dist := cost + e.2
                  match acc.dists.get? e.1 with
                  | none => none
                  | some dn =>
                    if ltD next_dist dn then do
                      let ds ← setChecked acc.dists e.1 (some next_dist)
                      let pm ← setChecked acc.parent e.1 (some position)
                      pure (DijSt.mk ds pm (acc.heap ++ [(next_dist, e.1)]))
                    else
                      some acc)
                (DijSt.mk s.dists s.parent heap') with _ | res
            · simp only [hfold] at hstep
              cases hstep
            · simp only [hfold] at hstep
              cases hstep
              have hedges : ∀ e ∈ vx.neighbors, EdgeTo g position e.1 :=
                fun e he => ⟨e.2, vx, hvx, by simpa using he⟩
              obtain ⟨hP2, hheap2⟩ := dij_fold_parentOk vx.neighbors hedges
                (DijSt.mk s.dists s.parent heap') s' hP
                (hheap (cost, position) hmem)
                (fun e he => hheap e (hrest e he)) hfold
              exact ⟨hP2, hheap2⟩

theorem dij_step_done {g : Graph} {s : DijSt} {p : List Nat}
    (hinv : DijCInv g s) (hstep : dijStep g s = .ok (Sum.inr (some p))) :
    p.head? = some g.start ∧ p.getLast? = some g.endv ∧
      List.Chain' (EdgeTo g) p := by
  obtain ⟨hP, hheap⟩ := hinv
  unfold dijStep at hstep
  rcases hpop : popMin s.heap with _ | ⟨⟨cost, position⟩, heap'⟩
  · simp only [hpop] at hstep
    cases hstep
  · simp only [hpop] at hstep
    obtain ⟨hmem, -, -⟩ := popMin_cover hpop
    by_cases hend : position = g.endv
    · rw [if_pos hend] at hstep
      rcases hrec : reconstruct_path s.parent g.endv with _ | _ | p0 <;>
        simp only [hrec] at hstep
      · cases hstep
      · cases hstep
      · cases hstep
        refine reconstruct_endpoints hP ?_ hrec
        have := hheap (cost, position) hmem
        rw [hend] at this
        exact this
    · rw [if_neg hend] at hstep
      rcases hd : s.dists.get? position with _ | dcur
      · simp only [hd] at hstep
        cases hstep
      · simp only [hd] at hstep
        by_cases hstale : gtD cost dcur
        · rw [if_pos hstale] at hstep
          cases hstep
        · rw [if_neg hstale] at hstep
          rcases hvx : g.vertices.get? position with _ | vx
          · simp only [hvx] at hstep
            cases hstep
          · simp only [hvx] at hstep
            rcases hfold : vx.neighbors.foldlM
                (fun (acc : DijSt) (e : Nat × Int) =>
                  let next_dist := cost + e.2
                  match acc.dists.get? e.1 with
                  | none => none
                  | some dn =>
                    if ltD next_dist dn then do
                      let ds ← setChecked acc.dists e.1 (some next_dist)
                      let pm ← setChecked acc.parent e.1 (some position)
                      pure (DijSt.mk ds pm (acc.heap ++ [(next_dist, e.1)]))
                    else
                      some acc)
                (DijSt.mk s.dists s.parent heap') with _ | res
            · simp only [hfold] at hstep
              cases hstep
            · simp only [hfold] at hstep
              cases hstep

theorem dij_run_spec {g : Graph} {fuel : Nat} {p : List Nat}
    (hrun : dijkstra g fuel = .ok (some p)) :
    p.head? = some g.start ∧ p.getLast? = some g.endv ∧
      List.Chain' (EdgeTo g) p := by
  unfold dijkstra at hrun
  rcases hin : dijInit g with _ | s0
  · rw [hin] at hrun; cases hrun
  · rw [hin] at hrun
    refine loopRun_inv (dijStep g) (DijCInv g)
      (fun r => ∀ q, r = some q → q.head? = some g.start ∧
        q.getLast? = some g.endv ∧ List.Chain' (EdgeTo g) q)
      (fun s s' hinv hs => dij_step_pres hinv hs)
      (fun s r hinv hstep q hq => by
        subst hq
        exact dij_step_done hinv hstep)
      fuel s0 (some p) ?_ hrun p rfl
    unfold dijInit at hin
    rcases hsv : setChecked (List.replicate g.vertices.length
        (none : Option Int)) g.start (some 0) with _ | dists0
    · rw [hsv] at hin; cases hin
    · rw [hsv] at hin
      simp only [Option.bind_eq_bind, Option.some_bind] at hin
      cases hin
      constructor
      · intro v u hvu
        exact absurd hvu replicate_none_no_some
      · intro e he
        rcases List.mem_cons.mp he with he | he
      <;> first
        | (subst he; exact Or.inl rfl)
        | simp at he

/-- C9.  Every path returned by any of the three strategies starts at the
start index of the graph and ends at its end index. -/
theorem paths_run_start_to_end (g : Graph) (algo : PathfindingAlgorithm)
    (fuel : Nat) (p : List Nat)
    (hrun : solve_graph g algo fuel = .ok (some p)) :
    p.head? = some g.start ∧ p.getLast? = some g.endv := by
  rcases algo with _ | _ | _
  · obtain ⟨h1, h2, -⟩ := dfs_run_spec hrun
    exact ⟨h1, h2⟩
  · obtain ⟨h1, h2, -⟩ := bfs_run_spec hrun
    exact ⟨h1, h2⟩
  · obtain ⟨h1, h2, -⟩ := dij_run_spec hrun
    exact ⟨h1, h2⟩

/-- C9 witness: the breadth first strategy on a concrete corridor graph
returns the path from start 0 to end 2. -/
theorem paths_run_start_to_end_witness :
    ([0, 1, 2] : List Nat).head? = some (0 : Nat) ∧
    ([0, 1, 2] : List Nat).getLast? = some (2 : Nat) := by
  refine paths_run_start_to_end
    (Graph.mk 0 2 [Vertex.mk (Coord.mk 0 0) [(1, 1)],
      Vertex.mk (Coord.mk 1 0) [(0, 1), (2, 1)],
      Vertex.mk (Coord.mk 2 0) [(1, 1)]])
    PathfindingAlgorithm.BreadthFirst 9 [0, 1, 2] (by decide)

/-! ### C5: breadth first search finds a minimum-edge-count path -/

theorem reachN_zero {g : Graph} {s v : Nat} (h : ReachN g s v 0) : v = s := by
  cases h
  rfl

theorem reachN_succ_inv {g : Graph} {s v m : Nat}
    (h : ReachN g s v (m + 1)) : ∃ x, ReachN g s x m ∧ EdgeTo g x v := by
  cases h with
  | tail hx he => exact ⟨_, hx, he⟩

theorem reach_visited_of_closed {g : Graph} {vis : List Bool}
    (hs : vis.get? g.start = some true)
    (hcl : ∀ x, vis.get? x = some true → ∀ v, EdgeTo g x v →
      vis.get? v = some true) :
    ∀ m w, ReachN g g.start w m → vis.get? w = some true := by
  intro m
  induction m with
  | zero =>
    intro w hw
    rw [reachN_zero hw]
    exact hs
  | succ k ih =>
    intro w hw
    obtain ⟨x, hx, he⟩ := reachN_succ_inv hw
    exact hcl x (ih x hx) w he

/-- The parent chain of a visited vertex: a chain of k parent links, each a
stored edge between visited vertices, running back to the start vertex. -/
inductive PChain (g : Graph) (P : List (Option Nat)) (vis : List Bool) :
    Nat → Nat → Prop
  | zero : vis.get? g.start = some true → P.get? g.start = some none →
      PChain g P vis g.start 0
  | succ {u v k} : vis.get? v = some true → P.get? v = some (some u) →
      EdgeTo g u v → PChain g P vis u k → PChain g P vis v (k + 1)

theorem pchain_stable {g : Graph} {P P' : List (Option Nat)}
    {vis vis' : List Bool}
    (hagree : ∀ x, vis.get? x = some true → P'.get? x = P.get? x)
    (hmono : ∀ x, vis.get? x = some true → vis'.get? x = some true) :
    ∀ {v k}, PChain g P vis v k → PChain g P' vis' v k := by
  intro v k h
  induction h with
  | zero hv hp => exact PChain.zero (hmono _ hv) ((hagree _ hv).trans hp)
  | succ hv hp he _ ih =>
    exact PChain.succ (hmono _ hv) ((hagree _ hv).trans hp) he ih

theorem pchain_walk_length {g : Graph} {P : List (Option Nat)}
    {vis : List Bool} :
    ∀ {v k}, PChain g P vis v k →
      ∀ (tail : List Nat),
        List.Chain' (fun x y => P.get? x = some (some y)) (v :: tail) →
        P.get? ((v :: tail).getLast (by simp)) = some none →
        tail.length = k := by
  intro v k h
  induction h with
  | zero hv hp =>
    intro tail hch hlast
    rcases tail with _ | ⟨t, tl⟩
    · rfl
    · rcases List.chain'_cons.mp hch with ⟨hlink, -⟩
      rw [hp] at hlink
      cases hlink
  | succ hv hp he hrec ih =>
    intro tail hch hlast
    rcases tail with _ | ⟨t, tl⟩
    · simp only [List.getLast_singleton] at hlast
      rw [hp] at hlast
      cases hlast
    · rcases List.chain'_cons.mp hch with ⟨hlink, hch'⟩
      rw [hp] at hlink
      have ht : t = _ := (Option.some_injective _
        (Option.some_injective _ hlink)).symm
      subst ht
      have := ih tl hch' (by simpa [List.getLast_cons] using hlast)
      simp [this]

/-- Mid-loop invariant of the breadth first neighbor expansion, stated on
the evolving queue, visited flags, parent map and ghost level function.
The vertex current has been popped and has level L. -/
structure BfsMidInv (g : Graph) (current L : Nat) (q : List Nat)
    (vis : List Bool) (pm : List (Option Nat)) (lev : Nat → Nat) : Prop where
  lenV : vis.length = g.vertices.length
  lenP : pm.length = g.vertices.length
  vstart : vis.get? g.start = some true
  pstart : pm.get? g.start = some none
  viscur : vis.get? current = some true
  levcur : lev current = L
  qvis : ∀ v ∈ q, vis.get? v = some true
  qblocks : ∃ qa qb, q = qa ++ qb ∧ (∀ x ∈ qa, lev x = L) ∧
    ∀ x ∈ qb, lev x = L + 1
  front : ∀ w m, ReachN g g.start w m → m ≤ L → vis.get? w = some true
  levmin : ∀ v, vis.get? v = some true → ∀ m, ReachN g g.start v m → lev v ≤ m
  chain : ∀ v, vis.get? v = some true → PChain g pm vis v (lev v)
  curchain : PChain g pm vis current L
  procmid : ∀ x, x ≠ current → vis.get? x = some true → x ∉ q →
    ∀ v, EdgeTo g x v → vis.get? v = some true

theorem bfs_min_fold {g : Graph} {current L : Nat}
    (nbrs : List (Nat × Int))
    (hnb : ∀ e ∈ nbrs, EdgeTo g current e.1) :
    ∀ (q : List Nat) (vis : List Bool) (pm : List (Option Nat))
      (lev : Nat → Nat) (q' : List Nat) (vis' : List Bool)
      (pm' : List (Option Nat)),
      BfsMidInv g current L q vis pm lev →
      nbrs.foldlM
        (fun (acc : List Nat × List Bool × List (Option Nat)) (e : Nat × Int) =>
          match acc.2.1.get? e.1 with
          | none => none
          | some true => some acc
          | some false => do
            let vis2 ← setChecked acc.2.1 e.1 true
            let pm2 ← setChecked acc.2.2 e.1 (some current)
            pure (acc.1 ++ [e.1], vis2, pm2))
        (q, vis, pm) = some (q', vis', pm') →
      ∃ lev', BfsMidInv g current L q' vis' pm' lev' ∧
        (∀ e ∈ nbrs, vis'.get? e.1 = some true) ∧
        (∀ x, vis.get? x = some true → vis'.get? x = some true ∧
          lev' x = lev x) ∧
        (∃ ext, q' = q ++ ext) := by
  induction nbrs with
  | nil =>
    intro q vis pm lev q' vis' pm' hmid hfold
    cases hfold
    exact ⟨lev, hmid, by simp, fun x hx => ⟨hx, rfl⟩, [], by simp⟩
  | cons e tl ih =>
    intro q vis pm lev q' vis' pm' hmid hfold
    rw [List.foldlM_cons] at hfold
    rcases hv : vis.get? e.1 with _ | b
    · rw [hv] at hfold; cases hfold
    · rw [hv] at hfold
      rcases b with _ | _
      · -- discovery of e.1 at level L + 1
        simp only [Option.bind_eq_bind] at hfold
        rcases hsv : setChecked vis e.1 true with _ | vis2
        · rw [hsv] at hfold; cases hfold
        · rw [hsv] at hfold
          rcases hsp : setChecked pm e.1 (some current) with _ | pm2
          · rw [hsp] at hfold
            simp at hfold
          · rw [hsp] at hfold
            simp only [Option.some_bind] at hfold
            obtain ⟨hltv, rfl⟩ := setChecked_some hsv
            obtain ⟨hltp, rfl⟩ := setChecked_some hsp
            -- e.1 is fresh: not visited, hence distinct from the special
            -- vertices and absent from the queue
            have hne_cur : e.1 ≠ current := by
              intro hh
              rw [hh, hmid.viscur] at hv
              cases hv
            have hne_start : e.1 ≠ g.start := by
              intro hh
              rw [hh, hmid.vstart] at hv
              cases hv
            have hnotq : e.1 ∉ q := by
              intro hh
              rw [hmid.qvis e.1 hh] at hv
              cases hv
            have hagree : ∀ x, vis.get? x = some true →
                (pm.set e.1 (some current)).get? x = pm.get? x := by
              intro x hx
              have : x ≠ e.1 := by
                intro hh
                rw [hh, hv] at hx
                cases hx
              rw [get?_set_ne (fun hh => this hh.symm)]
            have hvmono : ∀ x, vis.get? x = some true →
                (vis.set e.1 true).get? x = some true := by
              intro x hx
              have : x ≠ e.1 := by
                intro hh
                rw [hh, hv] at hx
                cases hx
              rw [get?_set_ne (fun hh => this hh.symm)]
              exact hx
            have hviseq : ∀ x, (vis.set e.1 true).get? x = some true →
                x = e.1 ∨ vis.get? x = some true := by
              intro x hx
              by_cases hh : x = e.1
              · exact Or.inl hh
              · rw [get?_set_ne (fun h2 => hh h2.symm)] at hx
                exact Or.inr hx
            have hvise : (vis.set e.1 true).get? e.1 = some true :=
              get?_set_self hltv
            have hpmE : (pm.set e.1 (some current)).get? e.1
                = some (some current) := get?_set_self hltp
            have hmid2 : BfsMidInv g current L (q ++ [e.1])
                (vis.set e.1 true) (pm.set e.1 (some current))
                (fun x => if x = e.1 then L + 1 else lev x) := by
              refine ⟨by simp [hmid.lenV], by simp [hmid.lenP],
                hvmono _ hmid.vstart,
                (hagree _ hmid.vstart).trans hmid.pstart,
                hvmono _ hmid.viscur, ?_, ?_, ?_, ?_, ?_, ?_, ?_, ?_⟩
              · show (if current = e.1 then L + 1 else lev current) = L
                rw [if_neg (fun hh => hne_cur hh.symm)]
                exact hmid.levcur
              · intro v hv2
                rcases List.mem_append.mp hv2 with hv2 | hv2
                · exact hvmono v (hmid.qvis v hv2)
                · simp only [List.mem_singleton] at hv2
                  subst hv2
                  exact hvise
              · obtain ⟨qa, qb, hq, hqa, hqb⟩ := hmid.qblocks
                refine ⟨qa, qb ++ [e.1], by rw [hq]; simp, ?_, ?_⟩
                · intro x hx
                  have hxne : x ≠ e.1 := by
                    intro hh
                    subst hh
                    exact hnotq (by rw [hq]; exact
                      List.mem_append.mpr (Or.inl hx))
                  show (if x = e.1 then L + 1 else lev x) = L
                  rw [if_neg hxne]
                  exact hqa x hx
                · intro x hx
                  rcases List.mem_append.mp hx with hx | hx
                  · have hxne : x ≠ e.1 := by
                      intro hh
                      subst hh
                      exact hnotq (by rw [hq]; exact
                        List.mem_append.mpr (Or.inr hx))
                    show (if x = e.1 then L + 1 else lev x) = L + 1
                    rw [if_neg hxne]
                    exact hqb x hx
                  · simp only [List.mem_singleton] at hx
                    subst hx
                    show (if e.1 = e.1 then L + 1 else lev e.1) = L + 1
                    rw [if_pos rfl]
              · intro w m hw hm
                exact hvmono w (hmid.front w m hw hm)
              · intro v hv2 m hm
                rcases hviseq v hv2 with hveq | hvold
                · subst hveq
                  show (if e.1 = e.1 then L + 1 else lev e.1) ≤ m
                  rw [if_pos rfl]
                  by_contra hlt
                  push_neg at hlt
                  have hmle : m ≤ L := by omega
                  have hcon := hmid.front e.1 m hm hmle
                  rw [hv] at hcon
                  cases hcon
                · have hne : v ≠ e.1 := by
                    intro hh
                    rw [hh, hv] at hvold
                    cases hvold
                  show (if v = e.1 then L + 1 else lev v) ≤ m
                  rw [if_neg hne]
                  exact hmid.levmin v hvold m hm
              · intro v hv2
                rcases hviseq v hv2 with hveq | hvold
                · subst hveq
                  show PChain g (pm.set e.1 (some current)) (vis.set e.1 true)
                    e.1 (if e.1 = e.1 then L + 1 else lev e.1)
                  rw [if_pos rfl]
                  exact PChain.succ hvise hpmE (hnb e (by simp))
                    (pchain_stable hagree hvmono hmid.curchain)
                · have hne : v ≠ e.1 := by
                    intro hh
                    rw [hh, hv] at hvold
                    cases hvold
                  show PChain g (pm.set e.1 (some current)) (vis.set e.1 true)
                    v (if v = e.1 then L + 1 else lev v)
                  rw [if_neg hne]
                  exact pchain_stable hagree hvmono (hmid.chain v hvold)
              · exact pchain_stable hagree hvmono hmid.curchain
              · intro x hxc hx2 hxq v2 he2
                rcases hviseq x hx2 with hveq | hvold
                · subst hveq
                  exact absurd (List.mem_append.mpr (Or.inr (by simp))) hxq
                · exact hvmono v2 (hmid.procmid x hxc hvold
                    (fun hh => hxq (List.mem_append.mpr (Or.inl hh))) v2 he2)
            obtain ⟨lev2, hmidf, hnbr, hmono2, ext, hext⟩ :=
              ih (fun e' he' => hnb e' (by simp [he'])) _ _ _ _ _ _ _
                hmid2 hfold
            refine ⟨lev2, hmidf, ?_, ?_, ?_⟩
            · intro e' he'
              rcases List.mem_cons.mp he' with he' | he'
              · rw [he']
                exact (hmono2 e.1 hvise).1
              · exact hnbr e' he'
            · intro x hx
              obtain ⟨h1, h2⟩ := hmono2 x (hvmono x hx)
              have : x ≠ e.1 := by
                intro hh
                rw [hh, hv] at hx
                cases hx
              refine ⟨h1, ?_⟩
              rw [h2]
              simp [this]
            · exact ⟨[e.1] ++ ext, by rw [hext]; simp⟩
      · -- neighbor already visited: no change
        obtain ⟨lev2, hmidf, hnbr, hmono2, ext, hext⟩ :=
          ih (fun e' he' => hnb e' (by simp [he'])) _ _ _ _ _ _ _ hmid hfold
        refine ⟨lev2, hmidf, ?_, hmono2, ext, hext⟩
        intro e' he'
        rcases List.mem_cons.mp he' with he' | he'
        · rw [he']
          exact (hmono2 e.1 hv).1
        · exact hnbr e' he'

/-- The breadth first loop invariant for minimality: a ghost level function
records the discovery depth of every visited vertex; the queue is a block
of level-L vertices followed by a block of level-(L+1) vertices; everything
reachable within L edges is already visited; levels are minimal; parent
chains realize the levels; dequeued vertices are fully expanded. -/
structure BfsMinSt (g : Graph) (s : BfsSt) (lev : Nat → Nat) : Prop where
  lenV : s.visited.length = g.vertices.length
  lenP : s.parent.length = g.vertices.length
  vstart : s.visited.get? g.start = some true
  pstart : s.parent.get? g.start = some none
  qvis : ∀ v ∈ s.queue, s.visited.get? v = some true
  qcanon : ∃ L qa qb, s.queue = qa ++ qb ∧ (∀ x ∈ qa, lev x = L) ∧
    (∀ x ∈ qb, lev x = L + 1) ∧
    (∀ w m, ReachN g g.start w m → m ≤ L → s.visited.get? w = some true) ∧
    (qa = [] → s.queue = [])
  qempty : s.queue = [] → ∀ w m, ReachN g g.start w m →
    s.visited.get? w = some true
  processed : ∀ x, s.visited.get? x = some true → x ∉ s.queue →
    ∀ v, EdgeTo g x v → s.visited.get? v = some true
  levmin : ∀ v, s.visited.get? v = some true → ∀ m,
    ReachN g g.start v m → lev v ≤ m
  chain : ∀ v, s.visited.get? v = some true → PChain g s.parent s.visited v (lev v)

theorem bfs_min_step {g : Graph} {s s' : BfsSt} {lev : Nat → Nat}
    (hinv : BfsMinSt g s lev) (hstep : bfsStep g s = .ok (Sum.inl s')) :
    ∃ lev', BfsMinSt g s' lev' := by
  unfold bfsStep at hstep
  rcases hq : s.queue with _ | ⟨current, rest⟩
  · simp only [hq] at hstep
    cases hstep
  · simp only [hq] at hstep
    by_cases hend : current = g.endv
    · rw [if_pos hend] at hstep
      rcases hrec : reconstruct_path s.parent g.endv with _ | _ | p0 <;>
        simp only [hrec] at hstep <;> cases hstep
    · rw [if_neg hend] at hstep
      rcases hvx : g.vertices.get? current with _ | vx
      · simp only [hvx] at hstep
        cases hstep
      · simp only [hvx] at hstep
        rcases hfold : vx.neighbors.foldlM
            (fun (acc : List Nat × List Bool × List (Option Nat)) (e : Nat × Int) =>
              match acc.2.1.get? e.1 with
              | none => none
              | some true => some acc
              | some false => do
                let vis2 ← setChecked acc.2.1 e.1 true
                let pm2 ← setChecked acc.2.2 e.1 (some current)
                pure (acc.1 ++ [e.1], vis2, pm2))
            (rest, s.visited, s.parent) with _ | res
        · simp only [hfold] at hstep
          cases hstep
        · simp only [hfold] at hstep
          obtain ⟨q2, vis2, pm2⟩ := res
          cases hstep
          obtain ⟨L, qa, qb, hsplit, hqa, hqb, hfront, hcanon⟩ := hinv.qcanon
          rcases hqa0 : qa with _ | ⟨qahd, qatl⟩
          · rw [hqa0] at hcanon
            rw [hcanon rfl] at hq
            cases hq
          · rw [hqa0] at hsplit
            rw [hq] at hsplit
            simp only [List.cons_append] at hsplit
            injection hsplit with hhd htl
            rw [← hhd] at hqa0
            have hrest : qatl ++ qb = rest := htl.symm
            have hlevcur : lev current = L := hqa current (by rw [hqa0]; simp)
            have hviscur : s.visited.get? current = some true :=
              hinv.qvis current (by rw [hq]; simp)
            have hmid : BfsMidInv g current L rest s.visited s.parent lev := by
              refine ⟨hinv.lenV, hinv.lenP, hinv.vstart, hinv.pstart,
                hviscur, hlevcur, ?_, ?_, hfront, hinv.levmin, hinv.chain,
                ?_, ?_⟩
              · intro v hv
                exact hinv.qvis v (by rw [hq]; simp [hv])
              · refine ⟨qatl, qb, hrest.symm, ?_, hqb⟩
                intro x hx
                exact hqa x (by rw [hqa0]; simp [hx])
              · rw [← hlevcur]
                exact hinv.chain current hviscur
              · intro x hxc hxv hxq v he
                refine hinv.processed x hxv ?_ v he
                rw [hq]
                intro hmem
                rcases List.mem_cons.mp hmem with hmem | hmem
                · exact hxc hmem
                · exact hxq hmem
            obtain ⟨lev2, hmidf, hnbrs, hmono, ext, hext⟩ :=
              bfs_min_fold vx.neighbors
                (fun e he => ⟨e.2, vx, hvx, by simpa using he⟩)
                rest s.visited s.parent lev q2 vis2 pm2 hmid hfold
            have hproc2 : ∀ x, vis2.get? x = some true → x ∉ q2 →
                ∀ v, EdgeTo g x v → vis2.get? v = some true := by
              intro x hxv hxq v he
              by_cases hxc : x = current
              · subst hxc
                obtain ⟨w2, vx2, hvx2, hmem⟩ := he
                rw [hvx] at hvx2
                cases hvx2
                exact hnbrs (v, w2) hmem
              · exact hmidf.procmid x hxc hxv hxq v he
            refine ⟨lev2, hmidf.lenV, hmidf.lenP, hmidf.vstart, hmidf.pstart,
              hmidf.qvis, ?_, ?_, hproc2, hmidf.levmin, hmidf.chain⟩
            · obtain ⟨qa2, qb2, hsplit2, hqa2, hqb2⟩ := hmidf.qblocks
              rcases hqa20 : qa2 with _ | ⟨q2hd, q2tl⟩
              · rw [hqa20] at hsplit2
                simp only [List.nil_append] at hsplit2
                rcases hqb20 : qb2 with _ | ⟨qbhd, qbtl⟩
                · refine ⟨L, [], [],
                    by show q2 = [] ++ []; rw [hsplit2, hqb20]; rfl,
                    by simp, by simp, hmidf.front,
                    fun _ => by show q2 = []; rw [hsplit2, hqb20]⟩
                · refine ⟨L + 1, qb2, [],
                    by show q2 = qb2 ++ []; rw [hsplit2]; simp, ?_, by simp,
                    ?_, ?_⟩
                  · intro x hx
                    exact hqb2 x hx
                  · intro w m hw hm
                    rcases Nat.lt_or_ge m (L + 1) with hlt | hge
                    · exact hmidf.front w m hw (by omega)
                    · have hmeq : m = L + 1 := by omega
                      subst hmeq
                      obtain ⟨x, hx, he⟩ := reachN_succ_inv hw
                      have hxv : vis2.get? x = some true :=
                        hmidf.front x L hx (by omega)
                      have hxnq : x ∉ q2 := by
                        intro hmem
                        rw [hsplit2] at hmem
                        have := hqb2 x hmem
                        have := hmidf.levmin x hxv L hx
                        omega
                      exact hproc2 x hxv hxnq w he
                  · intro hcon
                    rw [hqb20] at hcon
                    cases hcon
              · refine ⟨L, qa2, qb2, ?_, hqa2, hqb2, hmidf.front, ?_⟩
                · show q2 = qa2 ++ qb2
                  exact hsplit2
                · intro hcon
                  rw [hqa20] at hcon
                  cases hcon
            · intro hq2 w m hw
              have hq2' : q2 = [] := hq2
              refine reach_visited_of_closed hmidf.vstart ?_ m w hw
              intro x hxv v he
              refine hproc2 x hxv ?_ v he
              rw [hq2']
              simp

theorem bfs_min_done {g : Graph} {s : BfsSt} {lev : Nat → Nat} {p : List Nat}
    (hinv : BfsMinSt g s lev) (hstep : bfsStep g s = .ok (Sum.inr (some p))) :
    ∀ q, PathFromTo g g.start g.endv q → p.length ≤ q.length := by
  unfold bfsStep at hstep
  rcases hq : s.queue with _ | ⟨current, rest⟩
  · simp only [hq] at hstep
    cases hstep
  · simp only [hq] at hstep
    by_cases hend : current = g.endv
    · rw [if_pos hend] at hstep
      rcases hrec : reconstruct_path s.parent g.endv with _ | _ | p0 <;>
        simp only [hrec] at hstep
      · cases hstep
      · cases hstep
      · cases hstep
        intro q hqpath
        have hvisend : s.visited.get? g.endv = some true := by
          rw [← hend]
          exact hinv.qvis current (by rw [hq]; simp)
        unfold reconstruct_path at hrec
        obtain ⟨tail, hrev, hch, hlast⟩ :=
          reconstructAux_ok (s.parent.length + 1)
            g.endv [g.endv] p hrec
        simp only [List.singleton_append] at hrev
        have hlen_tail : tail.length = lev g.endv :=
          pchain_walk_length (hinv.chain g.endv hvisend) tail hch hlast
        have hplen : p.length = lev g.endv + 1 := by
          have : p.reverse.length = tail.length + 1 := by rw [hrev]; simp
          simpa [hlen_tail] using this
        have hqlen : 1 ≤ q.length := by
          rcases q with _ | _
          · obtain ⟨hh, -, -⟩ := hqpath
            cases hh
          · simp
        have hreach : ReachN g g.start g.endv (q.length - 1) :=
          pathFromTo_reachN hqpath
        have := hinv.levmin g.endv hvisend (q.length - 1) hreach
        omega
    · rw [if_neg hend] at hstep
      rcases hvx : g.vertices.get? current with _ | vx
      · simp only [hvx] at hstep
        cases hstep
      · simp only [hvx] at hstep
        rcases hfold : vx.neighbors.foldlM
            (fun (acc : List Nat × List Bool × List (Option Nat)) (e : Nat × Int) =>
              match acc.2.1.get? e.1 with
              | none => none
              | some true => some acc
              | some false => do
                let vis2 ← setChecked acc.2.1 e.1 true
                let pm2 ← setChecked acc.2.2 e.1 (some current)
                pure (acc.1 ++ [e.1], vis2, pm2))
            (rest, s.visited, s.parent) with _ | res
        · simp only [hfold] at hstep
          cases hstep
        · simp only [hfold] at hstep
          obtain ⟨q2, vis2, pm2⟩ := res
          cases hstep

theorem replicate_set_true {n i x : Nat}
    (h : ((List.replicate n false).set i true).get? x = some true) :
    x = i := by
  by_cases hx : x = i
  · exact hx
  · rw [get?_set_ne (fun hh => hx hh.symm)] at h
    by_cases hlt : x < n
    · rw [get?_replicate hlt] at h
      cases h
    · rw [List.get?_eq_none.mpr (by simpa using hlt)] at h
      cases h

theorem bfs_min_init {g : Graph} {s0 : BfsSt} (hinit : bfsInit g = some s0) :
    BfsMinSt g s0 (fun _ => 0) := by
  unfold bfsInit at hinit
  rcases hsv : setChecked (List.replicate g.vertices.length false)
      g.start true with _ | vis0
  · rw [hsv] at hinit; cases hinit
  · rw [hsv] at hinit
    simp only [Option.bind_eq_bind, Option.some_bind] at hinit
    cases hinit
    obtain ⟨hslt, rfl⟩ := setChecked_some hsv
    rw [List.length_replicate] at hslt
    have hvstart : ((List.replicate g.vertices.length false).set
        g.start true).get? g.start = some true :=
      get?_set_self (by simpa using hslt)
    have hvonly : ∀ x, ((List.replicate g.vertices.length false).set
        g.start true).get? x = some true → x = g.start :=
      fun x hx => replicate_set_true hx
    refine ⟨by simp, by simp, hvstart, get?_replicate hslt, ?_, ?_, ?_, ?_,
      ?_, ?_⟩
    · intro v hv
      simp only [List.mem_singleton] at hv
      subst hv
      exact hvstart
    · refine ⟨0, [g.start], [], rfl, by simp, by simp, ?_, by simp⟩
      intro w m hw hm
      have : m = 0 := by omega
      subst this
      rw [reachN_zero hw]
      exact hvstart
    · intro hcon
      cases hcon
    · intro x hx hxq v he
      have := hvonly x hx
      subst this
      exact absurd (by simp : g.start ∈ [g.start]) hxq
    · intro v hv m hm
      omega
    · intro v hv
      have := hvonly v hv
      subst this
      exact PChain.zero hvstart (get?_replicate hslt)

theorem bfs_min_run {g : Graph} {fuel : Nat} {p : List Nat}
    (hrun : bfs g fuel = .ok (some p)) :
    ∀ q, PathFromTo g g.start g.endv q → p.length ≤ q.length := by
  unfold bfs at hrun
  rcases hin : bfsInit g with _ | s0
  · rw [hin] at hrun; cases hrun
  · rw [hin] at hrun
    refine loopRun_inv (bfsStep g) (fun s => ∃ lev, BfsMinSt g s lev)
      (fun r => ∀ p0, r = some p0 → ∀ q, PathFromTo g g.start g.endv q →
        p0.length ≤ q.length)
      (fun s s' hinv hs => by
        obtain ⟨lev, hlev⟩ := hinv
        exact bfs_min_step hlev hs)
      (fun s r hinv hstep p0 hp0 => by
        subst hp0
        obtain ⟨lev, hlev⟩ := hinv
        exact bfs_min_done hlev hstep)
      fuel s0 (some p) ⟨fun _ => 0, bfs_min_init hin⟩ hrun p rfl

/-- C5.  A path returned by the breadth first strategy has the minimum
edge count over all stored-edge paths from start to end; in particular its
edge count is at most that of any path the depth first strategy returns on
the same graph. -/
theorem bfs_minimal_edge_count (g : Graph) (fuel : Nat) (p : List Nat)
    (hrun : bfs g fuel = .ok (some p)) :
    (∀ q, PathFromTo g g.start g.endv q → p.length - 1 ≤ q.length - 1) ∧
    (∀ fuel' p', dfs_iterative g fuel' = .ok (some p') →
      p.length - 1 ≤ p'.length - 1) := by
  constructor
  · intro q hq
    have := bfs_min_run hrun q hq
    omega
  · intro fuel' p' hrun'
    obtain ⟨h1, h2, h3⟩ := dfs_run_spec hrun'
    have := bfs_min_run hrun p' ⟨h1, h2, h3⟩
    omega

/-- C5 witness: on a concrete corridor graph both strategies return the
unique path and the breadth first edge count is at most the depth first
edge count. -/
theorem bfs_minimal_edge_count_witness :
    ([0, 1, 2] : List Nat).length - 1 ≤ ([0, 1, 2] : List Nat).length - 1 := by
  refine (bfs_minimal_edge_count
    (Graph.mk 0 2 [Vertex.mk (Coord.mk 0 0) [(1, 1)],
      Vertex.mk (Coord.mk 1 0) [(0, 1), (2, 1)],
      Vertex.mk (Coord.mk 2 0) [(1, 1)]])
    9 [0, 1, 2] (by decide)).2 9 [0, 1, 2] (by decide)

/-! ### C4: cost comparison of the three strategies -/

/-- C4 counterexample: a graph with positive (but not uniform) weights on
which all three strategies return a path, and the priority strategy's path
has an evaluated cost exceeding the evaluated cost of the breadth first
path.  The Cost Evaluator sums the first matching edge per pair, so the
cheap parallel edge the priority search used is priced at the expensive
first match. -/
theorem dijkstra_cost_not_min_positive_weights :
    (∀ v ∈ (Graph.mk 0 3
        [Vertex.mk (Coord.mk 0 0) [(2, 3), (1, 100), (1, 1)],
         Vertex.mk (Coord.mk 1 0) [(3, 1)],
         Vertex.mk (Coord.mk 2 0) [(3, 1)],
         Vertex.mk (Coord.mk 3 0) []]).vertices,
      ∀ e ∈ v.neighbors, (0 : Int) < e.2) ∧
    dijkstra (Graph.mk 0 3
        [Vertex.mk (Coord.mk 0 0) [(2, 3), (1, 100), (1, 1)],
         Vertex.mk (Coord.mk 1 0) [(3, 1)],
         Vertex.mk (Coord.mk 2 0) [(3, 1)],
         Vertex.mk (Coord.mk 3 0) []]) 20 = .ok (some [0, 1, 3]) ∧
    dfs_iterative (Graph.mk 0 3
        [Vertex.mk (Coord.mk 0 0) [(2, 3), (1, 100), (1, 1)],
         Vertex.mk (Coord.mk 1 0) [(3, 1)],
         Vertex.mk (Coord.mk 2 0) [(3, 1)],
         Vertex.mk (Coord.mk 3 0) []]) 20 = .ok (some [0, 1, 3]) ∧
    bfs (Graph.mk 0 3
        [Vertex.mk (Coord.mk 0 0) [(2, 3), (1, 100), (1, 1)],
         Vertex.mk (Coord.mk 1 0) [(3, 1)],
         Vertex.mk (Coord.mk 2 0) [(3, 1)],
         Vertex.mk (Coord.mk 3 0) []]) 20 = .ok (some [0, 2, 3]) ∧
    calculate_cost (Graph.mk 0 3
        [Vertex.mk (Coord.mk 0 0) [(2, 3), (1, 100), (1, 1)],
         Vertex.mk (Coord.mk 1 0) [(3, 1)],
         Vertex.mk (Coord.mk 2 0) [(3, 1)],
         Vertex.mk (Coord.mk 3 0) []]) [0, 1, 3] = some 101 ∧
    calculate_cost (Graph.mk 0 3
        [Vertex.mk (Coord.mk 0 0) [(2, 3), (1, 100), (1, 1)],
         Vertex.mk (Coord.mk 1 0) [(3, 1)],
         Vertex.mk (Coord.mk 2 0) [(3, 1)],
         Vertex.mk (Coord.mk 3 0) []]) [0, 2, 3] = some 4 ∧
    ¬ (101 : Int) ≤ 4 := by
  refine ⟨by decide, by decide, by decide, by decide, by decide, by decide,
    by decide⟩

theorem cost_fold_uniform {g : Graph} {w : Int}
    (huni : ∀ u vx, g.vertices.get? u = some vx → ∀ e ∈ vx.neighbors,
      e.2 = w) :
    ∀ (p : List Nat) (init : Int), List.Chain' (EdgeTo g) p →
      (List.range (p.length - 1)).foldlM
        (fun (tot_cost : Int) (i : Nat) => do
          let current ← p.get? i
          let next ← p.get? (i + 1)
          let vx ← g.vertices.get? current
          match vx.neighbors.find? (fun e => e.1 = next) with
          | some e => pure (tot_cost + e.2)
          | none => pure tot_cost)
        init = some (init + ((p.length - 1 : Nat) : Int) * w) := by
  intro p
  induction p with
  | nil => intro init _; simp [List.foldlM]
  | cons a tl ih =>
    intro init hch
    rcases tl with _ | ⟨b, rest⟩
    · simp [List.foldlM]
    · rcases List.chain'_cons.mp hch with ⟨hab, hch'⟩
      obtain ⟨wab, vxa, hvxa, hmem⟩ := hab
      have hw : wab = w := huni a vxa hvxa (b, wab) hmem
      have hfind : ∃ e, vxa.neighbors.find? (fun e => e.1 = b) = some e ∧
          e.1 = b ∧ e ∈ vxa.neighbors := by
        have hsome : (vxa.neighbors.find? (fun e => e.1 = b)).isSome := by
          rw [List.find?_isSome]
          exact ⟨(b, wab), hmem, by simp⟩
        rcases hfe : vxa.neighbors.find? (fun e => e.1 = b) with _ | e
        · rw [hfe] at hsome; cases hsome
        · refine ⟨e, hfe, ?_, List.mem_of_find?_eq_some hfe⟩
          have := List.find?_some hfe
          simpa using this
      obtain ⟨efound, hef, hef1, hefmem⟩ := hfind
      have hefw : efound.2 = w := huni a vxa hvxa efound hefmem
      have hlen : (a :: b :: rest).length - 1 = rest.length + 1 := by simp
      rw [hlen, List.range_succ_eq_map, List.foldlM_cons]
      rw [show ((a :: b :: rest).get? 0 : Option Nat) = some a from rfl]
      simp only [Option.bind_eq_bind, Option.some_bind]
      rw [show ((a :: b :: rest).get? 1 : Option Nat) = some b from rfl]
      simp only [Option.some_bind]
      rw [hvxa]
      simp only [Option.some_bind]
      simp only [hef, hefw]
      simp only [Option.pure_def, Option.some_bind]
      rw [List.foldlM_map]
      show List.foldlM
          (fun (tot_cost : Int) (i : Nat) => do
            let current ← (b :: rest).get? i
            let next ← (b :: rest).get? (i + 1)
            let vx ← g.vertices.get? current
            match vx.neighbors.find? (fun e => e.1 = next) with
            | some e => pure (tot_cost + e.2)
            | none => pure tot_cost)
          (init + w) (List.range rest.length)
        = some (init + ((rest.length + 1 : Nat) : Int) * w)
      rw [show rest.length = (b :: rest).length - 1 from by simp]
      rw [ih (init + w) hch']
      congr 1
      have hl3 : ((b :: rest).length - 1 : Nat) = rest.length := by simp
      rw [hl3]
      push_cast
      ring

theorem calculate_cost_uniform {g : Graph} {w : Int}
    (huni : ∀ u vx, g.vertices.get? u = some vx → ∀ e ∈ vx.neighbors,
      e.2 = w)
    (p : List Nat) (hch : List.Chain' (EdgeTo g) p) :
    calculate_cost g p = some (((p.length - 1 : Nat) : Int) * w) := by
  unfold calculate_cost
  have := cost_fold_uniform huni p 0 hch
  simpa using this

/-- Loop invariant of the priority search for minimal cost under uniform
weights: S is the ghost set of settled vertices; settled distances are
optimal (bounded by w times any reachable edge count); settled vertices
are fully relaxed; unsettled finite distances have a matching fresh heap
entry; heap entries never undercut their recorded distance; settled
distances are below every heap entry; parent links drop the distance by at
least w per step; finite distances belong to the start vertex or carry a
parent link. -/
structure DijMinInv (g : Graph) (w : Int) (s : DijSt) (S : Nat → Prop) :
    Prop where
  dstart : s.dists.get? g.start = some (some 0)
  nonneg : ∀ v c, s.dists.get? v = some (some c) → 0 ≤ c
  Sfin : ∀ v, S v → ∃ c, s.dists.get? v = some (some c)
  Sopt : ∀ v, S v → ∀ c, s.dists.get? v = some (some c) →
    ∀ m, ReachN g g.start v m → c ≤ w * (m : Int)
  Srelax : ∀ u, S u → ∀ cu, s.dists.get? u = some (some cu) →
    ∀ v wt, EdgeW g u v wt → ∃ cv, s.dists.get? v = some (some cv) ∧
      cv ≤ cu + wt
  fresh : ∀ v, ¬ S v → ∀ c, s.dists.get? v = some (some c) →
    (c, v) ∈ s.heap
  hb : ∀ e ∈ s.heap, ∃ c, s.dists.get? e.2 = some (some c) ∧ c ≤ e.1
  smono : ∀ v, S v → ∀ c, s.dists.get? v = some (some c) →
    ∀ e ∈ s.heap, c ≤ e.1
  ch : ∀ v u, s.parent.get? v = some (some u) →
    ∃ c cu, s.dists.get? v = some (some c) ∧
      s.dists.get? u = some (some cu) ∧ cu + w ≤ c
  dfin : ∀ v c, s.dists.get? v = some (some c) →
    v = g.start ∨ ∃ u, s.parent.get? v = some (some u)

theorem dij_key {g : Graph} {w : Int} {s : DijSt} {S : Nat → Prop}
    (hw : 0 < w)
    (huni : ∀ u vx, g.vertices.get? u = some vx → ∀ e ∈ vx.neighbors,
      e.2 = w)
    (hinv : DijMinInv g w s S)
    {c : Int} {u : Nat} {heap' : List (Int × Nat)}
    (hpop : popMin s.heap = some ((c, u), heap')) :
    ∀ m, ReachN g g.start u m →
      ∃ cu, s.dists.get? u = some (some cu) ∧ cu ≤ w * (m : Int) := by
  have hQ : ∀ m z, ReachN g g.start z m →
      (∃ cz, s.dists.get? z = some (some cz) ∧ cz ≤ w * (m : Int)) ∨
        c ≤ w * (m : Int) := by
    intro m
    induction m with
    | zero =>
      intro z hz
      rw [reachN_zero hz]
      exact Or.inl ⟨0, hinv.dstart, by simp⟩
    | succ k ih =>
      intro z hz
      obtain ⟨x, hx, hedge⟩ := reachN_succ_inv hz
      have hstepw : w * ((k : Int)) + w = w * ((k + 1 : Nat) : Int) := by
        push_cast
        ring
      rcases ih x hx with ⟨cx, hcx, hcxle⟩ | hcle
      · by_cases hSx : S x
        · obtain ⟨wt, hew⟩ := hedge
          have hwt : wt = w := by
            obtain ⟨vx, hvx, hmem⟩ := hew
            exact huni x vx hvx (z, wt) hmem
          obtain ⟨cz, hcz, hczle⟩ := hinv.Srelax x hSx cx hcx z wt hew
          refine Or.inl ⟨cz, hcz, ?_⟩
          rw [hwt] at hczle
          have : cx + w ≤ w * ((k : Int)) + w := by omega
          omega
        · have hmem := hinv.fresh x hSx cx hcx
          have := popMin_min hpop (cx, x) hmem
          refine Or.inr ?_
          have hkk : w * ((k : Int)) ≤ w * ((k + 1 : Nat) : Int) := by
            have : ((k : Int)) ≤ ((k + 1 : Nat) : Int) := by push_cast; omega
            exact mul_le_mul_of_nonneg_left this (le_of_lt hw)
          simp only at this
          omega
      · refine Or.inr ?_
        have hkk : w * ((k : Int)) ≤ w * ((k + 1 : Nat) : Int) := by
          have : ((k : Int)) ≤ ((k + 1 : Nat) : Int) := by push_cast; omega
          exact mul_le_mul_of_nonneg_left this (le_of_lt hw)
        omega
  intro m hm
  obtain ⟨cu, hcu, hcule⟩ := hinv.hb (c, u) (popMin_cover hpop).1
  rcases hQ m u hm with ⟨cz, hcz, hle⟩ | hle
  · rw [hcu] at hcz
    cases hcz
    exact ⟨cu, hcu, hle⟩
  · exact ⟨cu, hcu, by omega⟩

theorem dij_fold_noop {position : Nat} {cost : Int} :
    ∀ (nbrs : List (Nat × Int)) (acc : DijSt),
      (∀ e ∈ nbrs, ∃ cv, acc.dists.get? e.1 = some (some cv) ∧
        cv ≤ cost + e.2) →
      nbrs.foldlM
        (fun (acc : DijSt) (e : Nat × Int) =>
          let next_dist := cost + e.2
          match acc.dists.get? e.1 with
          | none => none
          | some dn =>
            if ltD next_dist dn then do
              let ds ← setChecked acc.dists e.1 (some next_dist)
              let pm ← setChecked acc.parent e.1 (some position)
              pure (DijSt.mk ds pm (acc.heap ++ [(next_dist, e.1)]))
            else
              some acc)
        acc = some acc := by
  intro nbrs
  induction nbrs with
  | nil =>
    intro acc _
    rfl
  | cons e tl ih =>
    intro acc hno
    rw [List.foldlM_cons]
    obtain ⟨cv, hcv, hle⟩ := hno e (by simp)
    have hlt : ltD (cost + e.2) (some cv) = false := by
      unfold ltD
      simp only [decide_eq_false_iff_not, not_lt]
      exact hle
    simp only [hcv, hlt, Bool.false_eq_true, if_false]
    exact ih acc (fun e2 he2 => hno e2 (by simp [he2]))

/-- Invariant threaded through the relaxation fold of one non-stale pop of
(cost, position): recorded distances only decrease and stay nonnegative,
distances at most cost are untouched, the start keeps distance zero,
unsettled vertices other than position keep a matching heap entry, heap
entries bound a recorded distance from above and cost from below, parent
links still drop the distance by at least w, and finite distances belong to
the start or carry a parent link. -/
structure DijMidInv (g : Graph) (w cost : Int) (position : Nat)
    (S : Nat → Prop) (s : DijSt) (acc : DijSt) : Prop where
  m_decr : ∀ v c, s.dists.get? v = some (some c) →
    ∃ c2, acc.dists.get? v = some (some c2) ∧ c2 ≤ c
  m_Sagree : ∀ v c, s.dists.get? v = some (some c) → c ≤ cost →
    acc.dists.get? v = some (some c)
  m_dstart : acc.dists.get? g.start = some (some 0)
  m_nonneg : ∀ v c, acc.dists.get? v = some (some c) → 0 ≤ c
  m_fresh : ∀ v, ¬ S v → v ≠ position → ∀ c,
    acc.dists.get? v = some (some c) → (c, v) ∈ acc.heap
  m_hb : ∀ e ∈ acc.heap, ∃ c, acc.dists.get? e.2 = some (some c) ∧ c ≤ e.1
  m_smono : ∀ e ∈ acc.heap, cost ≤ e.1
  m_ch : ∀ v u, acc.parent.get? v = some (some u) →
    ∃ c cu, acc.dists.get? v = some (some c) ∧
      acc.dists.get? u = some (some cu) ∧ cu + w ≤ c
  m_dfin : ∀ v c, acc.dists.get? v = some (some c) →
    v = g.start ∨ ∃ u, acc.parent.get? v = some (some u)

theorem dij_min_fold {g : Graph} {w cost : Int} {position : Nat}
    {S : Nat → Prop} {s : DijSt}
    (hw : 0 < w) (hcost : 0 ≤ cost)
    (hdpos : s.dists.get? position = some (some cost)) :
    ∀ (nbrs : List (Nat × Int)) (acc acc' : DijSt),
      (∀ e ∈ nbrs, e.2 = w) →
      DijMidInv g w cost position S s acc →
      nbrs.foldlM
        (fun (acc : DijSt) (e : Nat × Int) =>
          let next_dist := cost + e.2
          match acc.dists.get? e.1 with
          | none => none
          | some dn =>
            if ltD next_dist dn then do
              let ds ← setChecked acc.dists e.1 (some next_dist)
              let pm ← setChecked acc.parent e.1 (some position)
              pure (DijSt.mk ds pm (acc.heap ++ [(next_dist, e.1)]))
            else
              some acc)
        acc = some acc' →
      DijMidInv g w cost position S s acc' ∧
      (∀ v c, acc.dists.get? v = some (some c) →
        ∃ c2, acc'.dists.get? v = some (some c2) ∧ c2 ≤ c) ∧
      (∀ e ∈ nbrs, ∃ cv, acc'.dists.get? e.1 = some (some cv) ∧
        cv ≤ cost + e.2) := by
  intro nbrs
  induction nbrs with
  | nil =>
    intro acc acc' _ hmid hfold
    cases hfold
    exact ⟨hmid, fun v c h => ⟨c, h, le_refl c⟩, by simp⟩
  | cons e tl ih =>
    intro acc acc' hun hmid hfold
    have hw2 : e.2 = w := hun e (by simp)
    have htluni : ∀ e2 ∈ tl, e2.2 = w := fun e2 he2 => hun e2 (by simp [he2])
    rw [List.foldlM_cons] at hfold
    rcases hd : acc.dists.get? e.1 with _ | dn
    · simp only [hd] at hfold
      cases hfold
    · simp only [hd] at hfold
      by_cases hlt : ltD (cost + e.2) dn
      · rw [if_pos hlt] at hfold
        simp only [Option.bind_eq_bind] at hfold
        rcases hds : setChecked acc.dists e.1 (some (cost + e.2)) with _ | ds2
        · rw [hds] at hfold
          simp at hfold
        · rw [hds] at hfold
          rcases hsp : setChecked acc.parent e.1 (some position) with _ | pm2
          · rw [hsp] at hfold
            simp at hfold
          · rw [hsp] at hfold
            simp only [Option.some_bind] at hfold
            obtain ⟨hltd, rfl⟩ := setChecked_some hds
            obtain ⟨hltp, rfl⟩ := setChecked_some hsp
            have hwrite_lt : ∀ c0 : Int,
                acc.dists.get? e.1 = some (some c0) → cost + e.2 < c0 := by
              intro c0 hc0
              rw [hd] at hc0
              injection hc0 with h1
              have hlt2 := hlt
              rw [h1] at hlt2
              simp only [ltD, decide_eq_true_eq] at hlt2
              exact hlt2
            have hacc_pos : acc.dists.get? position = some (some cost) :=
              hmid.m_Sagree position cost hdpos (le_refl cost)
            have hstart_ne : e.1 ≠ g.start := by
              intro h
              have h0 : acc.dists.get? e.1 = some (some 0) := by
                rw [h]
                exact hmid.m_dstart
              have := hwrite_lt 0 h0
              rw [hw2] at this
              omega
            have hpos_ne : e.1 ≠ position := by
              intro h
              have h0 : acc.dists.get? e.1 = some (some cost) := by
                rw [h]
                exact hacc_pos
              have := hwrite_lt cost h0
              rw [hw2] at this
              omega
            have hmid1 : DijMidInv g w cost position S s
                (DijSt.mk (acc.dists.set e.1 (some (cost + e.2)))
                  (acc.parent.set e.1 (some position))
                  (acc.heap ++ [(cost + e.2, e.1)])) := by
              constructor
              · intro v c hvc
                obtain ⟨c2, hc2, hle2⟩ := hmid.m_decr v c hvc
                by_cases hv : v = e.1
                · subst hv
                  have hlt2 := hwrite_lt c2 hc2
                  exact ⟨cost + e.2, get?_set_self hltd, by omega⟩
                · exact ⟨c2, by
                    show (acc.dists.set e.1 (some (cost + e.2))).get? v = _
                    rw [get?_set_ne (fun h => hv h.symm)]
                    exact hc2, hle2⟩
              · intro v c hvc hcle
                have hacc := hmid.m_Sagree v c hvc hcle
                by_cases hv : v = e.1
                · exfalso
                  subst hv
                  have := hwrite_lt c hacc
                  rw [hw2] at this
                  omega
                · show (acc.dists.set e.1 (some (cost + e.2))).get? v = _
                  rw [get?_set_ne (fun h => hv h.symm)]
                  exact hacc
              · show (acc.dists.set e.1 (some (cost + e.2))).get? g.start = _
                rw [get?_set_ne hstart_ne]
                exact hmid.m_dstart
              · intro v c hvc
                by_cases hv : v = e.1
                · subst hv
                  rw [show (DijSt.mk (acc.dists.set e.1 (some (cost + e.2)))
                      (acc.parent.set e.1 (some position))
                      (acc.heap ++ [(cost + e.2, e.1)])).dists
                      = acc.dists.set e.1 (some (cost + e.2)) from rfl,
                    get?_set_self hltd] at hvc
                  injection hvc with h1
                  injection h1 with h2
                  rw [hw2] at h2
                  omega
                · rw [show (DijSt.mk (acc.dists.set e.1 (some (cost + e.2)))
                      (acc.parent.set e.1 (some position))
                      (acc.heap ++ [(cost + e.2, e.1)])).dists
                      = acc.dists.set e.1 (some (cost + e.2)) from rfl,
                    get?_set_ne (fun h => hv h.symm)] at hvc
                  exact hmid.m_nonneg v c hvc
              · intro v hvS hvpos c hvc
                by_cases hv : v = e.1
                · subst hv
                  rw [show (DijSt.mk (acc.dists.set e.1 (some (cost + e.2)))
                      (acc.parent.set e.1 (some position))
                      (acc.heap ++ [(cost + e.2, e.1)])).dists
                      = acc.dists.set e.1 (some (cost + e.2)) from rfl,
                    get?_set_self hltd] at hvc
                  injection hvc with h1
                  injection h1 with h2
                  show _ ∈ acc.heap ++ [(cost + e.2, e.1)]
                  rw [← h2]
                  exact List.mem_append.mpr (Or.inr (by simp))
                · rw [show (DijSt.mk (acc.dists.set e.1 (some (cost + e.2)))
                      (acc.parent.set e.1 (some position))
                      (acc.heap ++ [(cost + e.2, e.1)])).dists
                      = acc.dists.set e.1 (some (cost + e.2)) from rfl,
                    get?_set_ne (fun h => hv h.symm)] at hvc
                  exact List.mem_append.mpr
                    (Or.inl (hmid.m_fresh v hvS hvpos c hvc))
              · intro e3 he3
                rcases List.mem_append.mp he3 with he3 | he3
                · obtain ⟨c0, hc0, hc0le⟩ := hmid.m_hb e3 he3
                  by_cases hv : e3.2 = e.1
                  · have hlt2 := hwrite_lt c0 (hv ▸ hc0)
                    refine ⟨cost + e.2, ?_, by omega⟩
                    show (acc.dists.set e.1 (some (cost + e.2))).get? e3.2 = _
                    rw [hv, get?_set_self hltd]
                  · exact ⟨c0, by
                      show (acc.dists.set e.1 (some (cost + e.2))).get? e3.2 = _
                      rw [get?_set_ne (fun h => hv h.symm)]
                      exact hc0, hc0le⟩
                · simp only [List.mem_singleton] at he3
                  subst he3
                  exact ⟨cost + e.2, get?_set_self hltd, le_refl _⟩
              · intro e3 he3
                rcases List.mem_append.mp he3 with he3 | he3
                · exact hmid.m_smono e3 he3
                · simp only [List.mem_singleton] at he3
                  subst he3
                  show cost ≤ cost + e.2
                  rw [hw2]
                  omega
              · intro v u hvu
                by_cases hv : v = e.1
                · subst hv
                  rw [show (DijSt.mk (acc.dists.set e.1 (some (cost + e.2)))
                      (acc.parent.set e.1 (some position))
                      (acc.heap ++ [(cost + e.2, e.1)])).parent
                      = acc.parent.set e.1 (some position) from rfl,
                    get?_set_self hltp] at hvu
                  injection hvu with h1
                  injection h1 with h2
                  refine ⟨cost + e.2, cost, get?_set_self hltd, ?_, ?_⟩
                  · show (acc.dists.set e.1 (some (cost + e.2))).get? u = _
                    rw [← h2, get?_set_ne hpos_ne]
                    exact hacc_pos
                  · rw [hw2]
                · rw [show (DijSt.mk (acc.dists.set e.1 (some (cost + e.2)))
                      (acc.parent.set e.1 (some position))
                      (acc.heap ++ [(cost + e.2, e.1)])).parent
                      = acc.parent.set e.1 (some position) from rfl,
                    get?_set_ne (fun h => hv h.symm)] at hvu
                  obtain ⟨c, cu, hc, hcu, hcle⟩ := hmid.m_ch v u hvu
                  by_cases hu : u = e.1
                  · have hlt2 := hwrite_lt cu (hu ▸ hcu)
                    refine ⟨c, cost + e.2, ?_, ?_, by omega⟩
                    · show (acc.dists.set e.1 (some (cost + e.2))).get? v = _
                      rw [get?_set_ne (fun h => hv h.symm)]
                      exact hc
                    · show (acc.dists.set e.1 (some (cost + e.2))).get? u = _
                      rw [hu, get?_set_self hltd]
                  · refine ⟨c, cu, ?_, ?_, hcle⟩
                    · show (acc.dists.set e.1 (some (cost + e.2))).get? v = _
                      rw [get?_set_ne (fun h => hv h.symm)]
                      exact hc
                    · show (acc.dists.set e.1 (some (cost + e.2))).get? u = _
                      rw [get?_set_ne (fun h => hu h.symm)]
                      exact hcu
              · intro v c hvc
                by_cases hv : v = e.1
                · subst hv
                  exact Or.inr ⟨position, get?_set_self hltp⟩
                · rw [show (DijSt.mk (acc.dists.set e.1 (some (cost + e.2)))
                      (acc.parent.set e.1 (some position))
                      (acc.heap ++ [(cost + e.2, e.1)])).dists
                      = acc.dists.set e.1 (some (cost + e.2)) from rfl,
                    get?_set_ne (fun h => hv h.symm)] at hvc
                  rcases hmid.m_dfin v c hvc with h | ⟨u, hu⟩
                  · exact Or.inl h
                  · exact Or.inr ⟨u, by
                      show (acc.parent.set e.1 (some position)).get? v = _
                      rw [get?_set_ne (fun h => hv h.symm)]
                      exact hu⟩
            obtain ⟨hmid2, hdecr2, hdone2⟩ := ih
              (DijSt.mk (acc.dists.set e.1 (some (cost + e.2)))
                (acc.parent.set e.1 (some position))
                (acc.heap ++ [(cost + e.2, e.1)])) acc' htluni hmid1 hfold
            refine ⟨hmid2, ?_, ?_⟩
            · intro v c hvc
              by_cases hv : v = e.1
              · subst hv
                have hlt2 := hwrite_lt c hvc
                obtain ⟨c2, hc2, hle2⟩ := hdecr2 e.1 (cost + e.2)
                  (get?_set_self hltd)
                exact ⟨c2, hc2, by omega⟩
              · obtain ⟨c2, hc2, hle2⟩ := hdecr2 v c (by
                  show (acc.dists.set e.1 (some (cost + e.2))).get? v = _
                  rw [get?_set_ne (fun h => hv h.symm)]
                  exact hvc)
                exact ⟨c2, hc2, hle2⟩
            · intro e3 he3
              rcases List.mem_cons.mp he3 with he3 | he3
              · subst he3
                obtain ⟨c2, hc2, hle2⟩ := hdecr2 e3.1 (cost + e3.2)
                  (get?_set_self hltd)
                exact ⟨c2, hc2, hle2⟩
              · exact hdone2 e3 he3
      · rw [if_neg hlt] at hfold
        obtain ⟨hmid2, hdecr2, hdone2⟩ := ih acc acc' htluni hmid hfold
        refine ⟨hmid2, hdecr2, ?_⟩
        intro e3 he3
        rcases List.mem_cons.mp he3 with he3 | he3
        · subst he3
          rcases hdn : dn with _ | dv
          · rw [hdn] at hlt
            exact absurd rfl hlt
          · rw [hdn] at hd
            have hdvle : dv ≤ cost + e3.2 := by
              rw [hdn] at hlt
              simp only [ltD, decide_eq_true_eq] at hlt
              omega
            obtain ⟨c2, hc2, hle2⟩ := hdecr2 e3.1 dv hd
            exact ⟨c2, hc2, by omega⟩
        · exact hdone2 e3 he3

theorem dij_min_drop {g : Graph} {w cost : Int} {position : Nat}
    {heap' : List (Int × Nat)} {s : DijSt} {S : Nat → Prop}
    (hinv : DijMinInv g w s S)
    (hpop : popMin s.heap = some ((cost, position), heap'))
    (hkey : ¬ S position → s.dists.get? position = some (some cost) → False) :
    DijMinInv g w (DijSt.mk s.dists s.parent heap') S := by
  obtain ⟨hmem, hrest, hcov⟩ := popMin_cover hpop
  constructor
  · exact hinv.dstart
  · exact hinv.nonneg
  · exact hinv.Sfin
  · exact hinv.Sopt
  · exact hinv.Srelax
  · intro v hvS c hvc
    rcases hcov (c, v) (hinv.fresh v hvS c hvc) with heq | hin
    · injection heq with h1 h2
      subst h2
      exact absurd (h1 ▸ hvc) (fun hh => hkey hvS hh)
    · exact hin
  · intro e he
    exact hinv.hb e (hrest e he)
  · intro v hvS c hvc e he
    exact hinv.smono v hvS c hvc e (hrest e he)
  · exact hinv.ch
  · exact hinv.dfin

theorem dij_min_pres {g : Graph} {w : Int} {s s' : DijSt} {S : Nat → Prop}
    (hw : 0 < w)
    (huni : ∀ u vx, g.vertices.get? u = some vx → ∀ e ∈ vx.neighbors,
      e.2 = w)
    (hinv : DijMinInv g w s S) (hstep : dijStep g s = .ok (Sum.inl s')) :
    ∃ S2, DijMinInv g w s' S2 := by
  unfold dijStep at hstep
  rcases hpop : popMin s.heap with _ | ⟨⟨cost, position⟩, heap'⟩
  · simp only [hpop] at hstep
    cases hstep
  · simp only [hpop] at hstep
    obtain ⟨hmem, hrest, hcov⟩ := popMin_cover hpop
    by_cases hend : position = g.endv
    · rw [if_pos hend] at hstep
      rcases hrec : reconstruct_path s.parent g.endv with _ | _ | p <;>
        simp only [hrec] at hstep <;> cases hstep
    · rw [if_neg hend] at hstep
      rcases hdc : s.dists.get? position with _ | dcur
      · simp only [hdc] at hstep
        cases hstep
      · simp only [hdc] at hstep
        by_cases hstale : gtD cost dcur
        · rw [if_pos hstale] at hstep
          cases hstep
          refine ⟨S, dij_min_drop hinv hpop ?_⟩
          intro _ hpos
          rw [hdc] at hpos
          injection hpos with h1
          rw [h1] at hstale
          simp only [gtD, decide_eq_true_eq] at hstale
          omega
        · rw [if_neg hstale] at hstep
          obtain ⟨c0, hd0, hc0le⟩ := hinv.hb (cost, position) hmem
          have hd0x : s.dists.get? position = some (some c0) := hd0
          rw [hdc] at hd0x
          injection hd0x with h1
          rw [h1] at hstale
          simp only [gtD, decide_eq_true_eq] at hstale
          have hc0cost : c0 = cost := by omega
          have hdpos : s.dists.get? position = some (some cost) := by
            rw [← hc0cost]
            exact hd0
          have hcost : 0 ≤ cost := hinv.nonneg position cost hdpos
          rcases hvx : g.vertices.get? position with _ | vx
          · simp only [hvx] at hstep
            cases hstep
          · simp only [hvx] at hstep
            rcases hfold : vx.neighbors.foldlM
                (fun (acc : DijSt) (e : Nat × Int) =>
                  let next_dist := cost + e.2
                  match acc.dists.get? e.1 with
                  | none => none
                  | some dn =>
                    if ltD next_dist dn then do
                      let ds ← setChecked acc.dists e.1 (some next_dist)
                      let pm ← setChecked acc.parent e.1 (some position)
                      pure (DijSt.mk ds pm (acc.heap ++ [(next_dist, e.1)]))
                    else
                      some acc)
                (DijSt.mk s.dists s.parent heap') with _ | res
            · simp only [hfold] at hstep
              cases hstep
            · simp only [hfold] at hstep
              cases hstep
              by_cases hSpos : S position
              · have hnoop := @dij_fold_noop position cost vx.neighbors
                  (DijSt.mk s.dists s.parent heap')
                  (fun e he => hinv.Srelax position hSpos cost hdpos e.1 e.2
                    ⟨vx, hvx, by simpa using he⟩)
                rw [hnoop] at hfold
                injection hfold with hres
                subst hres
                exact ⟨S, dij_min_drop hinv hpop (fun hh _ => hh hSpos)⟩
              · have hnbruni : ∀ e ∈ vx.neighbors, e.2 = w :=
                  fun e he => huni position vx hvx e he
                have hmid0 : DijMidInv g w cost position S s
                    (DijSt.mk s.dists s.parent heap') := by
                  constructor
                  · exact fun v c h => ⟨c, h, le_refl c⟩
                  · exact fun v c h _ => h
                  · exact hinv.dstart
                  · exact hinv.nonneg
                  · intro v hvS hvpos c hvc
                    rcases hcov (c, v) (hinv.fresh v hvS c hvc) with heq | hin
                    · injection heq with h1 h2
                      exact absurd h2 hvpos
                    · exact hin
                  · exact fun e he => hinv.hb e (hrest e he)
                  · exact fun e he => popMin_min hpop e (hrest e he)
                  · exact hinv.ch
                  · exact hinv.dfin
                obtain ⟨hmid2, hdecr2, hdone2⟩ := dij_min_fold hw hcost hdpos
                  vx.neighbors (DijSt.mk s.dists s.parent heap') s'
                  hnbruni hmid0 hfold
                refine ⟨fun v => S v ∨ v = position, ?_⟩
                have hSval : ∀ v, S v → ∃ c, s'.dists.get? v = some (some c) ∧
                    s.dists.get? v = some (some c) ∧ c ≤ cost := by
                  intro v hvS
                  obtain ⟨c, hc⟩ := hinv.Sfin v hvS
                  have hle : c ≤ cost := hinv.smono v hvS c hc
                    (cost, position) hmem
                  exact ⟨c, hmid2.m_Sagree v c hc hle, hc, hle⟩
                have hres_pos : s'.dists.get? position = some (some cost) :=
                  hmid2.m_Sagree position cost hdpos (le_refl cost)
                constructor
                · exact hmid2.m_dstart
                · exact hmid2.m_nonneg
                · intro v hv
                  rcases hv with hv | hv
                  · obtain ⟨c, hc, -, -⟩ := hSval v hv
                    exact ⟨c, hc⟩
                  · subst hv
                    exact ⟨cost, hres_pos⟩
                · intro v hv c hvc m hreach
                  rcases hv with hv | hv
                  · obtain ⟨c2, hc2, hc2s, -⟩ := hSval v hv
                    rw [hc2] at hvc
                    injection hvc with h1
                    injection h1 with h2
                    rw [← h2]
                    exact hinv.Sopt v hv c2 hc2s m hreach
                  · subst hv
                    rw [hres_pos] at hvc
                    injection hvc with h1
                    injection h1 with h2
                    obtain ⟨cu, hcu, hcule⟩ :=
                      dij_key hw huni hinv hpop m hreach
                    rw [hdpos] at hcu
                    injection hcu with h3
                    injection h3 with h4
                    rw [← h2, h4]
                    exact hcule
                · intro v hv cv hvc v2 wt hedge
                  rcases hv with hv | hv
                  · obtain ⟨c2, hc2, hc2s, -⟩ := hSval v hv
                    rw [hc2] at hvc
                    injection hvc with h1
                    injection h1 with h2
                    obtain ⟨cv2, hcv2, hcv2le⟩ :=
                      hinv.Srelax v hv c2 hc2s v2 wt hedge
                    obtain ⟨c3, hc3, hc3le⟩ := hmid2.m_decr v2 cv2 hcv2
                    exact ⟨c3, hc3, by omega⟩
                  · subst hv
                    rw [hres_pos] at hvc
                    injection hvc with h1
                    injection h1 with h2
                    obtain ⟨vx2, hvx2, hmem2⟩ := hedge
                    rw [hvx] at hvx2
                    injection hvx2 with h3
                    rw [← h3] at hmem2
                    obtain ⟨c3, hc3, hc3le⟩ := hdone2 (v2, wt) hmem2
                    exact ⟨c3, hc3, by omega⟩
                · intro v hvS c hvc
                  have hnS : ¬ S v := fun hh => hvS (Or.inl hh)
                  have hnp : v ≠ position := fun hh => hvS (Or.inr hh)
                  exact hmid2.m_fresh v hnS hnp c hvc
                · exact hmid2.m_hb
                · intro v hv c hvc e he
                  have hcle : c ≤ cost := by
                    rcases hv with hv | hv
                    · obtain ⟨c2, hc2, -, hle2⟩ := hSval v hv
                      rw [hc2] at hvc
                      injection hvc with h1
                      injection h1 with h2
                      omega
                    · subst hv
                      rw [hres_pos] at hvc
                      injection hvc with h1
                      injection h1 with h2
                      omega
                  have := hmid2.m_smono e he
                  omega
                · exact hmid2.m_ch
                · exact hmid2.m_dfin

theorem dij_chain_cost {g : Graph} {w : Int} {s : DijSt} {S : Nat → Prop}
    (hinv : DijMinInv g w s S) :
    ∀ (tail : List Nat) (v : Nat) (cv : Int),
      List.Chain' (fun x y => s.parent.get? x = some (some y)) (v :: tail) →
      s.dists.get? v = some (some cv) →
      ∃ clast,
        s.dists.get? ((v :: tail).getLast (by simp)) = some (some clast) ∧
        clast + (tail.length : Int) * w ≤ cv := by
  intro tail
  induction tail with
  | nil =>
    intro v cv _ hcv
    exact ⟨cv, hcv, by simp⟩
  | cons t ts ih =>
    intro v cv hch hcv
    rcases List.chain'_cons.mp hch with ⟨hlink, hch2⟩
    obtain ⟨c, ct, hc, hct, hle⟩ := hinv.ch v t hlink
    rw [hcv] at hc
    injection hc with h1
    injection h1 with h2
    obtain ⟨clast, hclast, hlast_le⟩ := ih t ct hch2 hct
    refine ⟨clast, hclast, ?_⟩
    have hlen : (((t :: ts).length : Nat) : Int) = (ts.length : Int) + 1 := by
      push_cast [List.length_cons]
      ring
    rw [hlen]
    have hexp : clast + ((ts.length : Int) + 1) * w
        = (clast + (ts.length : Int) * w) + w := by ring
    rw [hexp, h2]
    linarith

theorem dij_min_done {g : Graph} {w : Int} {s : DijSt} {S : Nat → Prop}
    (hw : 0 < w)
    (huni : ∀ u vx, g.vertices.get? u = some vx → ∀ e ∈ vx.neighbors,
      e.2 = w)
    (hinv : DijMinInv g w s S) {p : List Nat}
    (hstep : dijStep g s = .ok (Sum.inr (some p))) :
    ∀ m, ReachN g g.start g.endv m → p.length - 1 ≤ m := by
  unfold dijStep at hstep
  rcases hpop : popMin s.heap with _ | ⟨⟨cost, position⟩, heap'⟩
  · simp only [hpop] at hstep
    cases hstep
  · simp only [hpop] at hstep
    obtain ⟨hmem, -, -⟩ := popMin_cover hpop
    by_cases hend : position = g.endv
    · rw [if_pos hend] at hstep
      rcases hrec : reconstruct_path s.parent g.endv with _ | _ | p0 <;>
        simp only [hrec] at hstep
      · cases hstep
      · cases hstep
      · cases hstep
        intro m hreach
        obtain ⟨ce, hce, hcele⟩ := hinv.hb (cost, position) hmem
        have hce2 : s.dists.get? g.endv = some (some ce) := by
          rw [← hend]
          exact hce
        have hreach2 : ReachN g g.start position m := by
          rw [hend]
          exact hreach
        obtain ⟨cu, hcu, hcule⟩ := dij_key hw huni hinv hpop m hreach2
        have hcu2 : s.dists.get? g.endv = some (some cu) := by
          rw [← hend]
          exact hcu
        rw [hce2] at hcu2
        injection hcu2 with h1
        injection h1 with h2
        unfold reconstruct_path at hrec
        obtain ⟨tail, hrev, hch, hlast⟩ := reconstructAux_ok
          (s.parent.length + 1) g.endv [g.endv] p hrec
        simp only [List.singleton_append] at hrev
        obtain ⟨clast, hclast, hlast_le⟩ :=
          dij_chain_cost hinv tail g.endv ce hch hce2
        have h0 : 0 ≤ clast := hinv.nonneg _ clast hclast
        have h3 : (tail.length : Int) * w ≤ w * (m : Int) := by linarith
        rw [mul_comm] at h3
        have h5 : (tail.length : Int) ≤ (m : Int) :=
          le_of_mul_le_mul_left h3 hw
        have h6 : tail.length ≤ m := by exact_mod_cast h5
        have hplen : p.length = tail.length + 1 := by
          have := congrArg List.length hrev
          simp at this
          omega
        omega
    · rw [if_neg hend] at hstep
      rcases hdc : s.dists.get? position with _ | dcur
      · simp only [hdc] at hstep
        cases hstep
      · simp only [hdc] at hstep
        by_cases hstale : gtD cost dcur
        · rw [if_pos hstale] at hstep
          cases hstep
        · rw [if_neg hstale] at hstep
          rcases hvx : g.vertices.get? position with _ | vx
          · simp only [hvx] at hstep
            cases hstep
          · simp only [hvx] at hstep
            rcases hfold : vx.neighbors.foldlM
                (fun (acc : DijSt) (e : Nat × Int) =>
                  let next_dist := cost + e.2
                  match acc.dists.get? e.1 with
                  | none => none
                  | some dn =>
                    if ltD next_dist dn then do
                      let ds ← setChecked acc.dists e.1 (some next_dist)
                      let pm ← setChecked acc.parent e.1 (some position)
                      pure (DijSt.mk ds pm (acc.heap ++ [(next_dist, e.1)]))
                    else
                      some acc)
                (DijSt.mk s.dists s.parent heap') with _ | res
            · simp only [hfold] at hstep
              cases hstep
            · simp only [hfold] at hstep
              cases hstep

theorem dij_min_init {g : Graph} {w : Int} {s0 : DijSt}
    (hin : dijInit g = some s0) :
    DijMinInv g w s0 (fun _ => False) := by
  unfold dijInit at hin
  rcases hsv : setChecked (List.replicate g.vertices.length
      (none : Option Int)) g.start (some 0) with _ | dists0
  · rw [hsv] at hin
    cases hin
  · rw [hsv] at hin
    simp only [Option.bind_eq_bind, Option.some_bind] at hin
    cases hin
    obtain ⟨hlt, rfl⟩ := setChecked_some hsv
    have hdists : ∀ v c,
        ((List.replicate g.vertices.length (none : Option Int)).set
          g.start (some 0)).get? v = some (some c) →
        v = g.start ∧ c = 0 := by
      intro v c h
      by_cases hv : v = g.start
      · subst hv
        rw [get?_set_self hlt] at h
        injection h with h1
        injection h1 with h2
        exact ⟨rfl, h2.symm⟩
      · rw [get?_set_ne (fun hh => hv hh.symm)] at h
        by_cases hvlen : v < g.vertices.length
        · rw [get?_replicate (by simpa using hvlen)] at h
          injection h with h1
          cases h1
        · rw [List.get?_eq_none.mpr (by simpa using hvlen)] at h
          cases h
    constructor
    · exact get?_set_self hlt
    · intro v c h
      obtain ⟨-, hc⟩ := hdists v c h
      omega
    · intro v hv
      cases hv
    · intro v hv
      cases hv
    · intro v hv
      cases hv
    · intro v _ c h
      obtain ⟨hv, hc⟩ := hdists v c h
      subst hv
      subst hc
      simp
    · intro e he
      rcases List.mem_cons.mp he with he | he
      · subst he
        exact ⟨0, get?_set_self hlt, le_refl 0⟩
      · simp at he
    · intro v hv
      cases hv
    · intro v u hvu
      exact absurd hvu replicate_none_no_some
    · intro v c h
      exact Or.inl (hdists v c h).1

theorem dij_min_run {g : Graph} {w : Int} {fuel : Nat} {p : List Nat}
    (hw : 0 < w)
    (huni : ∀ u vx, g.vertices.get? u = some vx → ∀ e ∈ vx.neighbors,
      e.2 = w)
    (hrun : dijkstra g fuel = .ok (some p)) :
    ∀ m, ReachN g g.start g.endv m → p.length - 1 ≤ m := by
  unfold dijkstra at hrun
  rcases hin : dijInit g with _ | s0
  · rw [hin] at hrun
    cases hrun
  · rw [hin] at hrun
    refine loopRun_inv (dijStep g) (fun s => ∃ S, DijMinInv g w s S)
      (fun r => ∀ q, r = some q → ∀ m, ReachN g g.start g.endv m →
        q.length - 1 ≤ m)
      (fun s s2 hinv hs => by
        obtain ⟨S, hS⟩ := hinv
        exact dij_min_pres hw huni hS hs)
      (fun s r hinv hstep q hq => by
        subst hq
        obtain ⟨S, hS⟩ := hinv
        exact dij_min_done hw huni hS hstep)
      fuel s0 (some p) ⟨fun _ => False, dij_min_init hin⟩ hrun p rfl

/-- C4 (amended).  For a graph all of whose stored edge weights equal one
positive value w, whenever the weighted strategy, breadth first and depth
first each return a path and the Cost Evaluator prices all three, the
weighted strategy's evaluated cost is at most the breadth first cost and at
most the depth first cost.  (Over merely positive weights the claim fails:
see dijkstra_cost_not_min_positive_weights.) -/
theorem dijkstra_min_cost_uniform {g : Graph} {w : Int}
    {fd fb ff : Nat} {pd pb pf : List Nat} {cd cb cf : Int}
    (hw : 0 < w)
    (hu : ∀ vx ∈ g.vertices, ∀ e ∈ vx.neighbors, e.2 = w)
    (hd : solve_graph g .Djikstra fd = .ok (some pd))
    (hb : solve_graph g .BreadthFirst fb = .ok (some pb))
    (hf : solve_graph g .DepthFirst ff = .ok (some pf))
    (hcd : calculate_cost g pd = some cd)
    (hcb : calculate_cost g pb = some cb)
    (hcf : calculate_cost g pf = some cf) :
    cd ≤ cb ∧ cd ≤ cf := by
  have huni : ∀ u vx, g.vertices.get? u = some vx → ∀ e ∈ vx.neighbors,
      e.2 = w :=
    fun u vx h e he => hu vx (get?_mem h) e he
  have hdx : dijkstra g fd = .ok (some pd) := hd
  have hbx : bfs g fb = .ok (some pb) := hb
  have hfx : dfs_iterative g ff = .ok (some pf) := hf
  obtain ⟨hdh, hdl, hdc⟩ := dij_run_spec hdx
  obtain ⟨hbh, hbl, hbc⟩ := bfs_run_spec hbx
  obtain ⟨hfh, hfl, hfc⟩ := dfs_run_spec hfx
  have hcdu := calculate_cost_uniform huni pd hdc
  have hcbu := calculate_cost_uniform huni pb hbc
  have hcfu := calculate_cost_uniform huni pf hfc
  rw [hcd] at hcdu
  injection hcdu with h1
  rw [hcb] at hcbu
  injection hcbu with h2
  rw [hcf] at hcfu
  injection hcfu with h3
  have hreachb : ReachN g g.start g.endv (pb.length - 1) :=
    pathFromTo_reachN ⟨hbh, hbl, hbc⟩
  have hreachf : ReachN g g.start g.endv (pf.length - 1) :=
    pathFromTo_reachN ⟨hfh, hfl, hfc⟩
  have hminb := dij_min_run hw huni hdx (pb.length - 1) hreachb
  have hminf := dij_min_run hw huni hdx (pf.length - 1) hreachf
  constructor
  · rw [h1, h2]
    have hcast : ((pd.length - 1 : Nat) : Int) ≤ ((pb.length - 1 : Nat) : Int) := by
      exact_mod_cast hminb
    exact mul_le_mul_of_nonneg_right hcast (le_of_lt hw)
  · rw [h1, h3]
    have hcast : ((pd.length - 1 : Nat) : Int) ≤ ((pf.length - 1 : Nat) : Int) := by
      exact_mod_cast hminf
    exact mul_le_mul_of_nonneg_right hcast (le_of_lt hw)

theorem dijkstra_min_cost_uniform_witness : (2 : Int) ≤ 2 ∧ (2 : Int) ≤ 2 := by
  have hw : (0 : Int) < 1 := by decide
  have hu : ∀ vx ∈ (Graph.mk 0 2
      [Vertex.mk (Coord.mk 0 0) [(1, 1)],
       Vertex.mk (Coord.mk 1 0) [(0, 1), (2, 1)],
       Vertex.mk (Coord.mk 2 0) [(1, 1)]]).vertices,
      ∀ e ∈ vx.neighbors, e.2 = (1 : Int) := by decide
  have hd : solve_graph (Graph.mk 0 2
      [Vertex.mk (Coord.mk 0 0) [(1, 1)],
       Vertex.mk (Coord.mk 1 0) [(0, 1), (2, 1)],
       Vertex.mk (Coord.mk 2 0) [(1, 1)]]) .Djikstra 20
      = .ok (some [0, 1, 2]) := by decide
  have hb : solve_graph (Graph.mk 0 2
      [Vertex.mk (Coord.mk 0 0) [(1, 1)],
       Vertex.mk (Coord.mk 1 0) [(0, 1), (2, 1)],
       Vertex.mk (Coord.mk 2 0) [(1, 1)]]) .BreadthFirst 20
      = .ok (some [0, 1, 2]) := by decide
  have hf : solve_graph (Graph.mk 0 2
      [Vertex.mk (Coord.mk 0 0) [(1, 1)],
       Vertex.mk (Coord.mk 1 0) [(0, 1), (2, 1)],
       Vertex.mk (Coord.mk 2 0) [(1, 1)]]) .DepthFirst 20
      = .ok (some [0, 1, 2]) := by decide
  have hcd : calculate_cost (Graph.mk 0 2
      [Vertex.mk (Coord.mk 0 0) [(1, 1)],
       Vertex.mk (Coord.mk 1 0) [(0, 1), (2, 1)],
       Vertex.mk (Coord.mk 2 0) [(1, 1)]]) [0, 1, 2] = some 2 := by decide
  exact dijkstra_min_cost_uniform hw hu hd hb hf hcd hcd hcd
